import Mathlib

/-!
Verification of the route-conflict detection engine of
`eslint-plugin-route-guard` against its specification.

The development shallowly embeds the TypeScript sources:

* `src/utils/path-normalizer.ts` — path segment grammar, normalizer with
  memoization, pairwise conflict detector (`parsePathSegment`,
  `parsePathSegments`, `normalizePathWithLevel`, `detectPathConflict`);
* `src/utils/performance-cache.ts` — the generic bounded LRU cache
  (`PerformanceCache`);
* `src/utils/path-utils.ts` — `joinPaths`, `isRootPath`;
* `src/utils/router-tracker.ts` — `RouterTracker` (prefix resolution graph);
* `src/utils/route-tracker.ts` — `RouteTracker` (route ledger).

JavaScript strings are modelled as `List Char` (`JStr`); JavaScript `Map`s
as insertion-ordered association lists with unique keys; mutable objects
reachable from several containers (router bindings, which are shared by
reference between the per-file binding map and the global export table) as
an explicit store (`store : List RouterBinding`) addressed by index.

The file is organised as: string helpers, segment model, bounded cache,
normalizer, conflict detector, path utils, router tracker, route tracker;
then general lemmas; then one theorem per specification claim.
-/

namespace RouteGuard

/-- JavaScript strings, modelled as lists of characters. -/
abbrev JStr := List Char

/-- Embed a Lean string literal as a `JStr`. -/
def js (s : String) : JStr := s.toList

/-- JavaScript truthiness of a string: `''` is falsy, all other strings
are truthy. -/
def truthyStr (s : JStr) : Bool := !s.isEmpty

/-- JavaScript truthiness of a `string | undefined` value: `undefined`
and `''` are falsy. -/
def truthyOpt (s : Option JStr) : Bool :=
  match s with
  | none => false
  | some v => truthyStr v

/-- JavaScript line terminators, which `.` in a regular expression
(without the `s` flag) does not match. -/
def isLineTerm (c : Char) : Bool :=
  c = '\n' || c = '\r' || c = Char.ofNat 0x2028 || c = Char.ofNat 0x2029

/-! ## Path segment model (`parsePathSegment`, `parsePathSegments`) -/

/-- The `type` field of `SegmentInfo`:
`'static' | 'param' | 'optional-param' | 'wildcard' | 'regex-param'`. -/
inductive SegType where
  | static
  | param
  | optionalParam
  | wildcard
  | regexParam
deriving DecidableEq, Repr

/-- The `SegmentInfo` from the source: `constraint` and `paramName` are the
optional fields. -/
structure SegmentInfo where
  raw : JStr
  type : SegType
  normalized : JStr
  constraint : Option JStr := none
  paramName : Option JStr := none
deriving DecidableEq, Repr

/-- Matcher for `baseSegment.match(/^:([^(]+)\*$/)`: the whole segment is
`':'`, a nonempty run of characters other than `'('`, then a final `'*'`.
Returns the first capture group. -/
def wildcardMatch (s : JStr) : Option JStr :=
  if s.head? = some ':' then
    let rest := s.tail
    let mid := rest.dropLast
    if rest.getLast? = some '*' && !mid.isEmpty && !mid.contains '(' then
      some mid
    else none
  else none

/-- Matcher for `baseSegment.match(/^:([^(]+)(\(.+\))$/)`: `':'`, then a
nonempty `'('`-free run (group 1, necessarily everything before the first
`'('`), then `'('`, one or more non-line-terminator characters, and a
final `')'` (group 2).  Returns `(group1, group2)`. -/
def regexMatch (s : JStr) : Option (JStr × JStr) :=
  if s.head? = some ':' then
    let rest := s.tail
    let name := rest.takeWhile (fun c => c ≠ '(')
    let grp2 := rest.drop name.length
    if !name.isEmpty && grp2.length ≥ 3 && grp2.getLast? = some ')' &&
        (grp2.drop 1).dropLast.all (fun c => !isLineTerm c) then
      some (name, grp2)
    else none
  else none

/-- Matcher for `baseSegment.match(/^:([^-:]+)-:(.+)$/)`: `':'`, then a
nonempty run free of `'-'` and `':'` (group 1, necessarily maximal), then
the literal characters `'-'`, `':'`, then one or more non-line-terminator
characters (group 2). -/
def fastifyMultiParamMatch (s : JStr) : Option (JStr × JStr) :=
  if s.head? = some ':' then
    let rest := s.tail
    let a := rest.takeWhile (fun c => c ≠ '-' && c ≠ ':')
    let tail2 := rest.drop a.length
    if !a.isEmpty && tail2.take 2 = [ '-', ':' ] &&
        !(tail2.drop 2).isEmpty && (tail2.drop 2).all (fun c => !isLineTerm c) then
      some (a, tail2.drop 2)
    else none
  else none

/-- The `parsePathSegment` from the source, classifying one `/`-free fragment. -/
def parsePathSegment (segment : JStr) : SegmentInfo :=
  if segment = [] then
    { raw := segment, type := .static, normalized := segment }
  else if segment = js "*" ∨ segment = js "**" then
    { raw := segment, type := .wildcard, normalized := js "*" }
  else if segment.head? = some ':' then
    let optional := segment.getLast? = some '?'
    let baseSegment := if optional then segment.dropLast else segment
    match wildcardMatch baseSegment with
    | some paramName =>
      { raw := segment, type := .wildcard, normalized := js "*",
        paramName := some paramName }
    | none =>
      match regexMatch baseSegment with
      | some (name, constraint) =>
        { raw := segment, type := .regexParam, normalized := js ":param",
          constraint := some constraint,
          paramName := some (if name.isEmpty then js "param" else name) }
      | none =>
        match fastifyMultiParamMatch baseSegment with
        | some (a, b) =>
          { raw := segment, type := .param,
            normalized := js ":param-:param",
            paramName := some (a ++ '-' :: b) }
        | none =>
          { raw := segment,
            type := if optional then .optionalParam else .param,
            normalized := if optional then js ":param?" else js ":param",
            paramName := some (baseSegment.drop 1) }
  else
    { raw := segment, type := .static, normalized := segment }

/-- The raw fragments `parsePathSegments` works on: empty path and `"/"`
give `[]`; otherwise strip one leading slash, split on `'/'`
(`List.splitOn` has exactly the JavaScript `split` semantics for a
one-character separator), and drop empty fragments (`filter(Boolean)`). -/
def rawSegments (path : JStr) : List JStr :=
  if path = [] ∨ path = js "/" then []
  else
    let stripped := if path.head? = some '/' then path.drop 1 else path
    (stripped.splitOn '/').filter (fun s => !s.isEmpty)

/-- The `parsePathSegments` from the source. -/
def parsePathSegments (path : JStr) : List SegmentInfo :=
  (rawSegments path).map parsePathSegment

/-! ## JavaScript `Map` emulation

A `Map` is an insertion-ordered association list whose keys are unique.
`set` on a present key overwrites in place, `set` on an absent key appends
at the end; `delete` removes the (unique) entry for a key; iteration order
is entry order. -/

/-- The `map.get(k)` — `none` models `undefined`. -/
def mapGet {K V : Type} [DecidableEq K] (k : K) (m : List (K × V)) : Option V :=
  (m.find? (fun e => e.1 = k)).map (·.2)

/-- The `map.has(k)`. -/
def mapHas {K V : Type} [DecidableEq K] (k : K) (m : List (K × V)) : Bool :=
  (m.find? (fun e => e.1 = k)).isSome

/-- The `map.delete(k)`: removes the first (with unique keys, the only) entry
whose key is `k`. -/
def mapDel {K V : Type} [DecidableEq K] (k : K) (m : List (K × V)) :
    List (K × V) :=
  m.eraseP (fun e => e.1 = k)

/-- The `map.set(k, v)`: overwrite in place when the key is present, else
append at the most-recently-inserted end. -/
def mapSet {K V : Type} [DecidableEq K] (k : K) (v : V) (m : List (K × V)) :
    List (K × V) :=
  if mapHas k m then m.map (fun e => if e.1 = k then (k, v) else e)
  else m ++ [(k, v)]

/-! ## Bounded LRU cache (`performance-cache.ts`, class `PerformanceCache`) -/

/-- The `PerformanceCache<K, V>`: a `Map`-backed store with hit/miss counters
and a capacity bound. -/
structure PerformanceCache (K V : Type) where
  cache : List (K × V) := []
  hits : Nat := 0
  misses : Nat := 0
  maxSize : Nat := 1000
deriving DecidableEq, Repr

namespace PerformanceCache

variable {K V : Type} [DecidableEq K]

/-- The constructor `new PerformanceCache(maxSize)`. -/
def mk0 (maxSize : Nat) : PerformanceCache K V :=
  { maxSize := maxSize }

/-- The `get(key)`: on a hit, bump the hit counter and move the entry to the
most-recently-used end (delete + re-insert); on a miss bump the miss
counter.  Returns the looked-up value together with the updated cache. -/
def get (k : K) (c : PerformanceCache K V) :
    Option V × PerformanceCache K V :=
  match mapGet k c.cache with
  | some v =>
    (some v, { c with hits := c.hits + 1,
                      cache := mapSet k v (mapDel k c.cache) })
  | none => (none, { c with misses := c.misses + 1 })

/-- The `set(key, value)`: delete a present key first (recency refresh, no
capacity check); otherwise, at capacity, evict the first key in iteration
order; then insert at the most-recently-used end. -/
def set (k : K) (v : V) (c : PerformanceCache K V) : PerformanceCache K V :=
  let base :=
    if mapHas k c.cache then mapDel k c.cache
    else if c.cache.length ≥ c.maxSize then
      match c.cache.head? with
      | some e => mapDel e.1 c.cache
      | none => c.cache
    else c.cache
  { c with cache := mapSet k v base }

/-- The `clear()`. -/
def clear (c : PerformanceCache K V) : PerformanceCache K V :=
  { c with cache := [], hits := 0, misses := 0 }

/-- The `getStats().size`. -/
def size (c : PerformanceCache K V) : Nat := c.cache.length

end PerformanceCache

/-- One externally-visible cache operation. -/
inductive CacheOp (K V : Type) where
  | get (k : K)
  | set (k : K) (v : V)

/-- Run one operation (discarding `get`'s return value). -/
def cacheStep {K V : Type} [DecidableEq K]
    (c : PerformanceCache K V) : CacheOp K V → PerformanceCache K V
  | .get k => (PerformanceCache.get k c).2
  | .set k v => PerformanceCache.set k v c

/-- Run a sequence of operations. -/
def cacheRun {K V : Type} [DecidableEq K]
    (c : PerformanceCache K V) (ops : List (CacheOp K V)) :
    PerformanceCache K V :=
  ops.foldl cacheStep c

/-! ## Path normalizer (`normalizePathWithLevel`) -/

/-- The per-segment projection used by the normalizer: level 1 takes the
segment's `normalized` form; level 2 collapses constrained parameters to
`":param"` unless `preserveConstraints` is set, and otherwise also takes
`normalized`; any other level falls through to the raw text (the
defensive `return seg.raw` in the source — unreachable for the declared
`NormalizationLevel` values). -/
def segProject (level : Nat) (preserveConstraints : Bool)
    (seg : SegmentInfo) : JStr :=
  if level = 1 then seg.normalized
  else if level = 2 then
    if seg.type = .regexParam ∧ preserveConstraints = false then js ":param"
    else seg.normalized
  else seg.raw

/-- The cache-miss computation of `normalizePathWithLevel` for `level ≥ 1`
(lines building `normalizedSegments` and joining them). -/
def normalizeCompute (path : JStr) (level : Nat)
    (preserveConstraints : Bool) : JStr :=
  let normalizedSegments :=
    (parsePathSegments path).map (segProject level preserveConstraints)
  if 0 < normalizedSegments.length then
    '/' :: List.intercalate (js "/") normalizedSegments
  else js "/"

/-- The cache key `` `${path}:${level}:${preserveConstraints}` ``. -/
def normCacheKey (path : JStr) (level : Nat)
    (preserveConstraints : Bool) : JStr :=
  path ++ ':' :: (Nat.toDigits 10 level) ++
    ':' :: (if preserveConstraints then js "true" else js "false")

/-- The normalization cache type (`pathNormalizationCache` holds
`JStr → JStr`). -/
abbrev NCache := PerformanceCache JStr JStr

/-- The `normalizePathWithLevel(path, level, preserveConstraints)`, threading
the `pathNormalizationCache` state explicitly.  Empty path yields `"/"`;
level 0 ensures a leading slash and returns before touching the cache;
level ≥ 1 consults the cache (a cached empty string would be falsy and
recomputed, mirroring `if (cached) return cached`), computing and storing
on a miss. -/
def normalizePathWithLevel (path : JStr) (level : Nat)
    (preserveConstraints : Bool) (c : NCache) : JStr × NCache :=
  if path = [] then (js "/", c)
  else if level = 0 then
    (if path.head? = some '/' then path else '/' :: path, c)
  else
    let cacheKey := normCacheKey path level preserveConstraints
    match PerformanceCache.get cacheKey c with
    | (some cached, c1) =>
      if truthyStr cached then (cached, c1)
      else
        let result := normalizeCompute path level preserveConstraints
        (result, PerformanceCache.set cacheKey result c1)
    | (none, c1) =>
      let result := normalizeCompute path level preserveConstraints
      (result, PerformanceCache.set cacheKey result c1)

/-! ## Conflict detector (`detectPathConflict`) -/

/-- The `ConflictType` from the source. -/
inductive ConflictType where
  | NONE
  | EXACT_DUPLICATE
  | PARAM_NAME_CONFLICT
  | STATIC_VS_DYNAMIC
  | DIFFERENT_CONSTRAINTS
  | WILDCARD_CONFLICT
deriving DecidableEq, Repr

/-- The `ConflictInfo` from the source. -/
structure ConflictInfo where
  type : ConflictType
  message : JStr
  segment1 : Option SegmentInfo := none
  segment2 : Option SegmentInfo := none
deriving DecidableEq, Repr

/-- The body of the detector's per-index loop: the first of the three
checks (wildcard mismatch, static vs dynamic, both constrained with
different constraint text — the last two guarded by JavaScript truthiness
of the constraint strings) that fires returns a conflict. -/
def segPairStop (seg1 seg2 : SegmentInfo) : Option ConflictInfo :=
  if (seg1.type = .wildcard ∨ seg2.type = .wildcard) ∧ seg1.type ≠ seg2.type then
    some { type := .WILDCARD_CONFLICT,
           message := js "Wildcard conflicts with specific path segment",
           segment1 := some seg1, segment2 := some seg2 }
  else if (seg1.type = .static ∧ seg2.type ≠ .static) ∨
      (seg1.type ≠ .static ∧ seg2.type = .static) then
    some { type := .STATIC_VS_DYNAMIC,
           message := js "Static path segment conflicts with dynamic parameter",
           segment1 := some seg1, segment2 := some seg2 }
  else if seg1.type = .regexParam ∧ seg2.type = .regexParam ∧
      truthyOpt seg1.constraint = true ∧ truthyOpt seg2.constraint = true ∧
      seg1.constraint ≠ seg2.constraint then
    some { type := .DIFFERENT_CONSTRAINTS,
           message := js "Parameters have different regex constraints",
           segment1 := some seg1, segment2 := some seg2 }
  else none

/-- The detector's loop over index-aligned segment pairs, returning the
first conflict found. -/
def findSegConflict : List (SegmentInfo × SegmentInfo) → Option ConflictInfo
  | [] => none
  | (s1, s2) :: rest =>
    match segPairStop s1 s2 with
    | some c => some c
    | none => findSegConflict rest

/-- The `detectPathConflict(path1, path2, level)`, threading the normalization
cache used by its two `normalizePathWithLevel` calls (which use the
default `preserveConstraints = false`). -/
def detectPathConflict (path1 path2 : JStr) (level : Nat) (c : NCache) :
    ConflictInfo × NCache :=
  if path1 = path2 then
    ({ type := .EXACT_DUPLICATE, message := js "Exact duplicate route paths" }, c)
  else
    let segments1 := parsePathSegments path1
    let segments2 := parsePathSegments path2
    if segments1.length ≠ segments2.length then
      ({ type := .NONE, message := js "Different path lengths" }, c)
    else
      match findSegConflict (segments1.zip segments2) with
      | some conflict => (conflict, c)
      | none =>
        let (normalized1, c1) := normalizePathWithLevel path1 level false c
        let (normalized2, c2) := normalizePathWithLevel path2 level false c1
        if normalized1 = normalized2 ∧ 0 < level then
          ({ type := .PARAM_NAME_CONFLICT,
             message := js "Routes have different parameter names but same structure" },
           c2)
        else
          ({ type := .NONE, message := js "No conflict detected" }, c2)

/-! ## Path utilities (`path-utils.ts`) -/

/-- The `p.replace(/^\/+|\/+$/g, '')`: strip every leading and trailing
slash. -/
def stripEdgeSlashes (p : JStr) : JStr :=
  ((p.dropWhile (fun c => c = '/')).reverse.dropWhile (fun c => c = '/')).reverse

/-- The `s.replace(/\/+/g, '/')`: collapse every run of slashes to a single
slash (keeping one slash per maximal run). -/
def collapseSlashes : JStr → JStr
  | [] => []
  | c :: rest =>
    let r := collapseSlashes rest
    if c = '/' ∧ r.head? = some '/' then r else c :: r

/-- The `joinPaths(...parts)` from `path-utils.ts`: strip edge slashes from
each part, drop empty parts, join with `'/'`, collapse repeated slashes,
and prepend exactly one leading slash; an empty result is `"/"`. -/
def joinPaths (parts : List JStr) : JStr :=
  let normalized :=
    collapseSlashes
      (List.intercalate (js "/")
        ((parts.map stripEdgeSlashes).filter (fun p => !p.isEmpty)))
  if normalized.isEmpty then js "/" else '/' :: normalized

/-- The `isRootPath(path)`: `!path || path === '/' || path === ''`. -/
def isRootPath (p : JStr) : Bool :=
  p.isEmpty || p = js "/" || decide (p = [])

/-! ## Router-prefix resolution graph (`router-tracker.ts`) -/

/-- The framework tag `'express' | 'fastify' | 'generic'`. -/
inductive Framework where
  | express
  | fastify
  | generic
deriving DecidableEq, Repr

/-- The `RouterBinding` from the source. -/
structure RouterBinding where
  identifier : JStr
  framework : Framework
  prefixes : List JStr
  depth : Nat
  file : JStr
  exported : Bool
deriving DecidableEq, Repr

/-- The `RouterExport`: the `binding` field is a JavaScript object reference,
modelled as an index (`bindingRef`) into the tracker's binding store. -/
structure RouterExport where
  identifier : JStr
  file : JStr
  bindingRef : Nat
deriving DecidableEq, Repr

/-- The `RouterImport` (field `from` is renamed `importedFrom`; `from` is a
Lean keyword). -/
structure RouterImport where
  identifier : JStr
  localName : JStr
  importedFrom : JStr
  file : JStr
deriving DecidableEq, Repr

/-- The `Required<RouterTrackerOptions>`. -/
structure RouterTrackerOptions where
  maxDepth : Nat
  warnOnDynamicPrefix : Bool
  debug : Bool
deriving DecidableEq, Repr

/-- The `RouterTracker` state.  JavaScript `RouterBinding` objects live on
the heap and stay reachable through the export table even after the
per-file `bindings` map is cleared; the model therefore keeps every
created binding in an append-or-update `store`, and both `bindings` and
the export entries refer to store indices. -/
structure RouterTracker where
  options : RouterTrackerOptions
  store : List RouterBinding
  bindings : List (JStr × Nat)
  exports : List (JStr × List RouterExport)
  imports : List (JStr × List RouterImport)
  currentFile : JStr
deriving DecidableEq, Repr

namespace RouterTracker

/-- The constructor, with the option defaults `maxDepth = 5`,
`warnOnDynamicPrefix = true`, `debug = false`. -/
def new (maxDepth : Nat := 5) (warnOnDyn : Bool := true)
    (debug : Bool := false) : RouterTracker :=
  { options := { maxDepth := maxDepth, warnOnDynamicPrefix := warnOnDyn,
                 debug := debug },
    store := [], bindings := [], exports := [], imports := [],
    currentFile := [] }

/-- The `this.bindings.get(identifier)`, dereferencing the stored object:
yields the store index together with the current binding value. -/
def lookupBinding (t : RouterTracker) (identifier : JStr) :
    Option (Nat × RouterBinding) :=
  match mapGet identifier t.bindings with
  | none => none
  | some ref =>
    match t.store[ref]? with
    | none => none
    | some b => some (ref, b)

/-- The `registerBinding`: a fresh binding object (empty prefixes, depth 0,
current file, not exported) is allocated and bound to the identifier. -/
def registerBinding (t : RouterTracker) (identifier : JStr)
    (framework : Framework) : RouterTracker :=
  let binding : RouterBinding :=
    { identifier := identifier, framework := framework, prefixes := [],
      depth := 0, file := t.currentFile, exported := false }
  { t with store := t.store ++ [binding],
           bindings := mapSet identifier t.store.length t.bindings }

/-- The `applyPrefix(identifier, prefix)`: unknown binding → `false`, no
mutation; root/empty prefix → `true`, no mutation; exceeding `maxDepth`
→ `false`, no mutation; otherwise append the prefix, bump the depth, and
return `true`. -/
def applyPrefix (t : RouterTracker) (identifier pfx : JStr) :
    Bool × RouterTracker :=
  match lookupBinding t identifier with
  | none => (false, t)
  | some (ref, binding) =>
    if isRootPath pfx then (true, t)
    else
      let newDepth := binding.depth + 1
      if t.options.maxDepth < newDepth then (false, t)
      else
        let binding' := { binding with prefixes := binding.prefixes ++ [pfx],
                                       depth := newDepth }
        (true, { t with store := t.store.set ref binding' })

/-- The `resolveImportedRouter(localName)`: look the name up in the global
export table; no (or empty) match list → `null`; otherwise join the first
entry's binding prefixes (a multiple-match ambiguity only logs a
warning). -/
def resolveImportedRouter (t : RouterTracker) (localName : JStr) :
    Option JStr :=
  match mapGet localName t.exports with
  | none => none
  | some exportMatches =>
    match exportMatches.head? with
    | none => none
    | some m =>
      match t.store[m.bindingRef]? with
      | none => none
      | some b => some (joinPaths b.prefixes)

/-- The `getEffectivePrefix(identifier)`: a local binding with no prefixes
yields `null`, one with prefixes yields their join; with no local binding
the cross-file resolution result is returned when truthy, else `null`. -/
def getEffectivePrefix (t : RouterTracker) (identifier : JStr) :
    Option JStr :=
  match lookupBinding t identifier with
  | none =>
    match resolveImportedRouter t identifier with
    | some imported => if truthyStr imported then some imported else none
    | none => none
  | some (_, binding) =>
    if binding.prefixes.length = 0 then none
    else some (joinPaths binding.prefixes)

/-- The `markExported(identifier)`: set the binding's `exported` flag and
append an export entry (sharing the binding object, i.e. the store index)
to the global export table. -/
def markExported (t : RouterTracker) (identifier : JStr) : RouterTracker :=
  match lookupBinding t identifier with
  | none => t
  | some (ref, binding) =>
    let exportInfo : RouterExport :=
      { identifier := identifier, file := t.currentFile, bindingRef := ref }
    let existing := (mapGet identifier t.exports).getD []
    { t with store := t.store.set ref { binding with exported := true },
             exports := mapSet identifier (existing ++ [exportInfo]) t.exports }

/-- The `registerImport(identifier, localName, from)`. -/
def registerImport (t : RouterTracker) (identifier localName fromSource : JStr) :
    RouterTracker :=
  let importInfo : RouterImport :=
    { identifier := identifier, localName := localName,
      importedFrom := fromSource, file := t.currentFile }
  let existing := (mapGet localName t.imports).getD []
  { t with imports := mapSet localName (existing ++ [importInfo]) t.imports }

/-- The `resetFile(filePath)`: clear only the per-file bindings map (exported
binding objects stay reachable through the export table). -/
def resetFile (t : RouterTracker) (filePath : JStr) : RouterTracker :=
  { t with currentFile := filePath, bindings := [] }

/-- The `reset()`: full reset of bindings, exports, imports and current
file. -/
def reset (t : RouterTracker) : RouterTracker :=
  { t with bindings := [], exports := [], imports := [], currentFile := [] }

end RouterTracker

/-! ## Route ledger (`route-tracker.ts`) -/

/-- The `RouteRegistration`; the `node` AST reference is opaque to the ledger
and modelled as a numeric identity. -/
structure RouteRegistration where
  method : JStr
  path : JStr
  file : JStr
  line : Nat
  column : Nat
  node : Nat
  framework : Option JStr := none
deriving DecidableEq, Repr

/-- The `RouteTracker` state. -/
structure RouteTracker where
  routes : List (JStr × RouteRegistration)
  currentLintId : Option JStr
deriving DecidableEq, Repr

namespace RouteTracker

/-- The freshly constructed tracker. -/
def new : RouteTracker := { routes := [], currentLintId := none }

/-- The ledger key `` `${route.method}:${route.path}` ``. -/
def routeKey (route : RouteRegistration) : JStr :=
  route.method ++ ':' :: route.path

/-- The `reset(lintId)`: clear the routes only when the lint id changes. -/
def reset (t : RouteTracker) (lintId : JStr) : RouteTracker :=
  if t.currentLintId ≠ some lintId then
    { routes := [], currentLintId := some lintId }
  else t

/-- The `register(route)`: return the existing record for the key untouched,
or insert and return `null`. -/
def register (t : RouteTracker) (route : RouteRegistration) :
    Option RouteRegistration × RouteTracker :=
  match mapGet (routeKey route) t.routes with
  | some existing => (some existing, t)
  | none => (none, { t with routes := mapSet (routeKey route) route t.routes })

/-- The `getRoutes()`: all records in insertion order. -/
def getRoutes (t : RouteTracker) : List RouteRegistration :=
  t.routes.map (·.2)

/-- The `clear()`. -/
def clear (_t : RouteTracker) : RouteTracker :=
  { routes := [], currentLintId := none }

end RouteTracker

/-! ## Statement-level definitions -/

/-- The cache-free normalization function: what `normalizePathWithLevel`
computes for its path argument (empty path → `"/"`; level 0 → leading
slash ensured; level ≥ 1 → the segment-wise canonical form). -/
def normalizePathCore (path : JStr) (level : Nat)
    (preserveConstraints : Bool) : JStr :=
  if path = [] then js "/"
  else if level = 0 then
    (if path.head? = some '/' then path else '/' :: path)
  else normalizeCompute path level preserveConstraints

/-- Well-formedness of the normalization cache: unique keys, and every
entry stored under a well-formed cache key holds exactly the
deterministic normalization of that key's components.  Every reachable
cache state satisfies this, the empty cache vacuously. -/
def normCacheWF (c : NCache) : Prop :=
  (c.cache.map Prod.fst).Nodup ∧
  ∀ (p : JStr) (L : Nat) (pc : Bool) (v : JStr), (L = 1 ∨ L = 2) →
    mapGet (normCacheKey p L pc) c.cache = some v →
    v = normalizeCompute p L pc

/-- The implicit router-tracker invariant: every binding object's `depth`
equals the number of its accumulated prefixes. -/
@[reducible]
def DepthInv (t : RouterTracker) : Prop :=
  ∀ b ∈ t.store, b.depth = b.prefixes.length

/-- The binding value produced by a successful mount: one appended prefix
and the depth bumped with it. -/
def bindingAfterMount (b : RouterBinding) (pfx : JStr) : RouterBinding :=
  { b with prefixes := b.prefixes ++ [pfx], depth := b.depth + 1 }

/-- A binding already carrying five prefixes at depth 5. -/
def demoBinding8 : RouterBinding :=
  { identifier := js "r", framework := .express,
    prefixes := [ js "/a", js "/b", js "/c", js "/d", js "/e" ],
    depth := 5, file := js "f.ts", exported := false }

/-- A tracker (`maxDepth = 5`) holding `demoBinding8` under name `r`. -/
def demoTracker8 : RouterTracker :=
  { options := { maxDepth := 5, warnOnDynamicPrefix := true, debug := false },
    store := [demoBinding8], bindings := [(js "r", 0)],
    exports := [], imports := [], currentFile := js "f.ts" }

/-- A tracker state as left after file `a.ts` created and exported router
`auth` with no prefixes and the analysis moved on to file `b.ts` (local
bindings cleared, export table retained). -/
def demoTracker3 : RouterTracker :=
  { options := { maxDepth := 5, warnOnDynamicPrefix := true, debug := false },
    store := [ { identifier := js "auth", framework := .express,
                 prefixes := [], depth := 0, file := js "a.ts",
                 exported := true } ],
    bindings := [],
    exports := [ (js "auth",
      [ { identifier := js "auth", file := js "a.ts", bindingRef := 0 } ]) ],
    imports := [], currentFile := js "b.ts" }

/-- A tracker whose current file holds a local `auth` binding with zero
prefixes. -/
def demoTracker3loc : RouterTracker :=
  { options := { maxDepth := 5, warnOnDynamicPrefix := true, debug := false },
    store := [ { identifier := js "auth", framework := .express,
                 prefixes := [], depth := 0, file := js "a.ts",
                 exported := false } ],
    bindings := [(js "auth", 0)],
    exports := [], imports := [], currentFile := js "a.ts" }

/-- A first registration of `GET /x`. -/
def demoRouteA : RouteRegistration :=
  { method := js "GET", path := js "/x", file := js "a.ts",
    line := 1, column := 0, node := 0 }

/-- A second, distinct registration of `GET /x`. -/
def demoRouteB : RouteRegistration :=
  { method := js "GET", path := js "/x", file := js "b.ts",
    line := 9, column := 2, node := 1 }

end RouteGuard

namespace RouteGuard

example : parsePathSegment (js ":id") =
    { raw := js ":id", type := .param, normalized := js ":param",
      paramName := some (js "id") } := by decide

example : parsePathSegment (js ":id(\\d+)") =
    { raw := js ":id(\\d+)", type := .regexParam, normalized := js ":param",
      constraint := some (js "(\\d+)"), paramName := some (js "id") } := by decide

example : parsePathSegment (js ":height-:width") =
    { raw := js ":height-:width", type := .param,
      normalized := js ":param-:param",
      paramName := some (js "height-width") } := by decide

example : parsePathSegment (js ":height-width") =
    { raw := js ":height-width", type := .param, normalized := js ":param",
      paramName := some (js "height-width") } := by decide

example : parsePathSegment (js ":file*") =
    { raw := js ":file*", type := .wildcard, normalized := js "*",
      paramName := some (js "file") } := by decide

example : parsePathSegment (js ":opt?") =
    { raw := js ":opt?", type := .optionalParam, normalized := js ":param?",
      paramName := some (js "opt") } := by decide

example : parsePathSegments (js "/users/:id") =
    [ { raw := js "users", type := .static, normalized := js "users" },
      { raw := js ":id", type := .param, normalized := js ":param",
        paramName := some (js "id") } ] := by decide

example :
    (normalizePathWithLevel (js "/users/:id") 1 false (.mk0 2000)).1 =
      js "/users/:param" := by decide

example :
    (normalizePathWithLevel (js "//a") 0 false (.mk0 2000)).1 = js "//a" := by
  decide

example :
    (detectPathConflict (js "/users/:id") (js "/users/:userId") 1 (.mk0 2000)).1.type
      = .PARAM_NAME_CONFLICT := by decide

example :
    (detectPathConflict (js "/users/:id") (js "/users/:userId") 0 (.mk0 2000)).1.type
      = .NONE := by decide

example :
    (detectPathConflict (js "/users") (js "/users") 2 (.mk0 2000)).1.type
      = .EXACT_DUPLICATE := by decide

/-! ## Supporting lemmas -/

/-- A successful binding lookup dereferences a store index. -/
theorem lookupBinding_store {t : RouterTracker} {id : JStr} {ref : Nat}
    {b : RouterBinding} (h : RouterTracker.lookupBinding t id = some (ref, b)) :
    t.store[ref]? = some b := by
  unfold RouterTracker.lookupBinding at h
  cases hg : mapGet id t.bindings with
  | none => simp [hg] at h
  | some r =>
    rw [hg] at h
    cases hs : t.store[r]? with
    | none => simp [hs] at h
    | some b0 =>
      simp only [hs] at h
      obtain ⟨h1, h2⟩ := Prod.mk.injEq .. ▸ Option.some.injEq .. ▸ h
      rw [← h1, hs, h2]


/-! ## Claim C8 — depth ceiling failure mutates nothing -/

/-- C8: with `maxDepth = 5`, applying a prefix to a binding that already
holds 5 prefixes at depth 5 fails and returns the tracker unchanged: the
binding keeps exactly its 5 prefixes and depth 5. -/
theorem applyPrefix_depth_ceiling (t : RouterTracker) (id pfx : JStr)
    (ref : Nat) (b : RouterBinding)
    (hlook : RouterTracker.lookupBinding t id = some (ref, b))
    (hmax : t.options.maxDepth = 5) (hdepth : b.depth = 5)
    (hlen : b.prefixes.length = 5) (hroot : isRootPath pfx = false) :
    RouterTracker.applyPrefix t id pfx = (false, t) := by
  unfold RouterTracker.applyPrefix
  rw [hlook]
  simp [hroot, hmax, hdepth]

/-- C8 witness: the concrete tracker `demoTracker8` at its depth limit. -/
theorem applyPrefix_depth_ceiling_witness :
    RouterTracker.applyPrefix demoTracker8 (js "r") (js "/api")
      = (false, demoTracker8) :=
  applyPrefix_depth_ceiling demoTracker8 (js "r") (js "/api") 0 demoBinding8
    (by decide) (by decide) (by decide) (by decide) (by decide)

/-! ## Claim C9 — ledger registration is first-writer-wins -/

/-- C9: `register` inserts and returns absence when the key
`method + ":" + path` is missing; on a present key it returns the stored
record and leaves the ledger untouched; registering `GET /x` twice from a
fresh ledger returns absence then the first record, and the snapshot
holds exactly one record. -/
theorem register_first_writer_wins :
    (∀ (t : RouteTracker) (r : RouteRegistration),
      mapGet (RouteTracker.routeKey r) t.routes = none →
      RouteTracker.register t r =
        (none, { t with routes := t.routes ++ [(RouteTracker.routeKey r, r)] })) ∧
    (∀ (t : RouteTracker) (r e : RouteRegistration),
      mapGet (RouteTracker.routeKey r) t.routes = some e →
      RouteTracker.register t r = (some e, t)) ∧
    (RouteTracker.register RouteTracker.new demoRouteA).1 = none ∧
    (RouteTracker.register
      (RouteTracker.register RouteTracker.new demoRouteA).2 demoRouteB).1
      = some demoRouteA ∧
    (RouteTracker.getRoutes
      (RouteTracker.register
        (RouteTracker.register RouteTracker.new demoRouteA).2 demoRouteB).2).length
      = 1 := by
  refine ⟨?_, ?_, by decide, by decide, by decide⟩
  · intro t r hnone
    have hfind : (t.routes.find? fun e => e.1 = RouteTracker.routeKey r) = none := by
      cases hx : t.routes.find? fun e => e.1 = RouteTracker.routeKey r with
      | none => rfl
      | some e => rw [mapGet, hx] at hnone; simp at hnone
    unfold RouteTracker.register
    rw [hnone]
    simp [mapSet, mapHas, hfind]
  · intro t r e hsome
    unfold RouteTracker.register
    rw [hsome]

/-- C9 witness: an absent key inserts and returns absence; a present key
returns the first record unchanged. -/
theorem register_first_writer_wins_witness :
    RouteTracker.register RouteTracker.new demoRouteA =
      (none, { routes := [(RouteTracker.routeKey demoRouteA, demoRouteA)],
               currentLintId := none }) ∧
    RouteTracker.register
        ({ routes := [(RouteTracker.routeKey demoRouteA, demoRouteA)],
           currentLintId := none }) demoRouteB
      = (some demoRouteA,
         { routes := [(RouteTracker.routeKey demoRouteA, demoRouteA)],
           currentLintId := none }) :=
  ⟨register_first_writer_wins.1 RouteTracker.new demoRouteA (by decide),
   register_first_writer_wins.2.1 _ demoRouteB demoRouteA (by decide)⟩

/-! ## Claim C10 — depth always equals the prefix count -/

/-- C10: every tracker operation preserves the invariant that each stored
binding's `depth` equals `prefixes.length` (a fresh tracker satisfies it
vacuously), and `applyPrefix` either leaves the tracker unchanged or
updates exactly one binding by appending one prefix and bumping the depth
with it. -/
theorem depth_eq_prefix_count :
    (∀ md w d, DepthInv (RouterTracker.new md w d)) ∧
    (∀ t id fw, DepthInv t → DepthInv (RouterTracker.registerBinding t id fw)) ∧
    (∀ t id pfx, DepthInv t → DepthInv ( RouterTracker.applyPrefix t id pfx).2) ∧
    (∀ t id, DepthInv t → DepthInv (RouterTracker.markExported t id)) ∧
    (∀ t a b c, DepthInv t → DepthInv (RouterTracker.registerImport t a b c)) ∧
    (∀ t f, DepthInv t → DepthInv (RouterTracker.resetFile t f)) ∧
    (∀ t, DepthInv t → DepthInv (RouterTracker.reset t)) ∧
    (∀ t id pfx, ( RouterTracker.applyPrefix t id pfx).2 = t ∨
      ∃ ref b, RouterTracker.lookupBinding t id = some (ref, b) ∧
        ( RouterTracker.applyPrefix t id pfx).2 =
          { t with store := t.store.set ref (bindingAfterMount b pfx) }) := by
  refine ⟨?_, ?_, ?_, ?_, ?_, ?_, ?_, ?_⟩
  · intro md w d b hb
    simp [RouterTracker.new] at hb
  · intro t id fw hinv b hb
    simp only [RouterTracker.registerBinding, List.mem_append,
      List.mem_singleton] at hb
    rcases hb with hb | hb
    · exact hinv b hb
    · subst hb; rfl
  · intro t id pfx hinv b hb
    unfold RouterTracker.applyPrefix at hb
    cases hlook : RouterTracker.lookupBinding t id with
    | none => rw [hlook] at hb; exact hinv b hb
    | some rb =>
      obtain ⟨ref, b0⟩ := rb
      rw [hlook] at hb
      by_cases hroot : isRootPath pfx
      · simp only [hroot, if_true] at hb; exact hinv b hb
      · simp only [hroot, if_false, Bool.false_eq_true] at hb
        by_cases hd : t.options.maxDepth < b0.depth + 1
        · rw [if_pos hd] at hb; exact hinv b hb
        · rw [if_neg hd] at hb
          simp only at hb
          rcases List.mem_or_eq_of_mem_set hb with hb | hb
          · exact hinv b hb
          · subst hb
            have hb0 : b0 ∈ t.store := List.getElem?_mem (lookupBinding_store hlook)
            simp [hinv b0 hb0]
  · intro t id hinv b hb
    unfold RouterTracker.markExported at hb
    cases hlook : RouterTracker.lookupBinding t id with
    | none => rw [hlook] at hb; exact hinv b hb
    | some rb =>
      obtain ⟨ref, b0⟩ := rb
      rw [hlook] at hb
      simp only at hb
      rcases List.mem_or_eq_of_mem_set hb with hb | hb
      · exact hinv b hb
      · subst hb
        have hb0 : b0 ∈ t.store := List.getElem?_mem (lookupBinding_store hlook)
        simpa using hinv b0 hb0
  · intro t a b c hinv x hx
    exact hinv x hx
  · intro t f hinv x hx
    exact hinv x hx
  · intro t hinv x hx
    exact hinv x hx
  · intro t id pfx
    unfold RouterTracker.applyPrefix
    cases hlook : RouterTracker.lookupBinding t id with
    | none => exact Or.inl rfl
    | some rb =>
      obtain ⟨ref, b0⟩ := rb
      by_cases hroot : isRootPath pfx
      · simp [hroot]
      · by_cases hd : t.options.maxDepth < b0.depth + 1
        · simp [hroot, hd]
        · simp only [hroot, hd, if_false, Bool.false_eq_true]
          exact Or.inr ⟨ref, b0, rfl, by simp [bindingAfterMount]⟩

/-- C10 witness: a concrete successful mount on `demoTracker3loc` keeps
the invariant, and the update shape is the appended-prefix one. -/
theorem depth_eq_prefix_count_witness :
    DepthInv ( RouterTracker.applyPrefix demoTracker3loc (js "auth") (js "/api")).2 ∧
    (( RouterTracker.applyPrefix demoTracker3loc (js "auth") (js "/api")).2
        = demoTracker3loc ∨
      ∃ ref b, RouterTracker.lookupBinding demoTracker3loc (js "auth")
          = some (ref, b) ∧
        ( RouterTracker.applyPrefix demoTracker3loc (js "auth") (js "/api")).2 =
          { demoTracker3loc with
              store := demoTracker3loc.store.set ref (bindingAfterMount b (js "/api")) }) :=
  ⟨depth_eq_prefix_count.2.2.1 demoTracker3loc (js "auth") (js "/api") (by decide),
   depth_eq_prefix_count.2.2.2.2.2.2.2 demoTracker3loc (js "auth") (js "/api")⟩

/-! ## Claim C3 — zero-prefix resolution (corrected)

Locally, a binding with zero accumulated prefixes yields absence; but a
zero-prefix binding reached through the cross-file export table yields
`joinPaths()` of an empty prefix list, which is the root string `"/"`
(truthy), not absence. -/

/-- C3 counterexample: in `demoTracker3` the identifier `auth` has no
local binding, resolves through the export table to a binding with zero
accumulated prefixes, and `getEffectivePrefix` returns the root string
`"/"` rather than absence. -/
theorem getEffectivePrefix_zero_cross_file_not_none :
    mapGet (js "auth") demoTracker3.bindings = none ∧
    (Option.map (fun es => es.map (·.bindingRef))
        (mapGet (js "auth") demoTracker3.exports)) = some [0] ∧
    (Option.map (·.prefixes) demoTracker3.store[0]?) = some [] ∧
    RouterTracker.getEffectivePrefix demoTracker3 (js "auth")
      = some (js "/") := by decide

/-- C3 amended: locally, a binding with zero accumulated prefixes yields
absence; with no local binding, a zero-prefix exported binding found in
the export table resolves to the root string `"/"`. -/
theorem getEffectivePrefix_zero_prefixes :
    (∀ (t : RouterTracker) (id : JStr) (ref : Nat) (b : RouterBinding),
      RouterTracker.lookupBinding t id = some (ref, b) →
      b.prefixes = [] →
      RouterTracker.getEffectivePrefix t id = none) ∧
    (∀ (t : RouterTracker) (id : JStr) (m : RouterExport)
        (ms : List RouterExport) (b : RouterBinding),
      mapGet id t.bindings = none →
      mapGet id t.exports = some (m :: ms) →
      t.store[m.bindingRef]? = some b →
      b.prefixes = [] →
      RouterTracker.getEffectivePrefix t id = some (js "/")) := by
  constructor
  · intro t id ref b hlook hzero
    unfold RouterTracker.getEffectivePrefix
    rw [hlook]
    simp [hzero]
  · intro t id m ms b hbind hexp hstore hzero
    unfold RouterTracker.getEffectivePrefix RouterTracker.lookupBinding
    rw [hbind]
    unfold RouterTracker.resolveImportedRouter
    rw [hexp]
    simp only [List.head?_cons]
    rw [hstore]
    simp [hzero, joinPaths, truthyStr, js, List.intercalate]
    decide

/-- C3 witness: both amended branches at concrete trackers. -/
theorem getEffectivePrefix_zero_prefixes_witness :
    RouterTracker.getEffectivePrefix demoTracker3loc (js "auth") = none ∧
    RouterTracker.getEffectivePrefix demoTracker3 (js "auth") = some (js "/") :=
  ⟨getEffectivePrefix_zero_prefixes.1 demoTracker3loc (js "auth") 0
      ({ identifier := js "auth", framework := .express, prefixes := [],
         depth := 0, file := js "a.ts", exported := false })
      (by decide) (by decide),
   getEffectivePrefix_zero_prefixes.2 demoTracker3 (js "auth")
      ({ identifier := js "auth", file := js "a.ts", bindingRef := 0 }) []
      ({ identifier := js "auth", framework := .express, prefixes := [],
         depth := 0, file := js "a.ts", exported := true })
      (by decide) (by decide) (by decide) (by decide)⟩

/-! ## Claim C4 — level-0 normalization (corrected)

Level 0 never touches the cache and ensures *a* leading slash, but it
does not collapse pre-existing slashes: an input already starting with
`'/'` is returned verbatim, so `"//a"` keeps its double slash. -/

/-- C4 counterexample: at level 0 the path `"//a"` is returned unchanged
(the cache untouched), and the result starts with `"//"`. -/
theorem normalize_level0_double_slash :
    normalizePathWithLevel (js "//a") 0 false (.mk0 2000)
      = (js "//a", .mk0 2000) ∧
    (normalizePathWithLevel (js "//a") 0 false (.mk0 2000)).1.take 2
      = js "//" := by decide

/-- C4 amended: for every path, every `preserveConstraints` and every
cache state, level-0 normalization returns the raw path verbatim when it
already starts with `'/'` (even with repeated leading slashes), prepends
a single `'/'` otherwise, maps the empty path to `"/"`; the result always
starts with `'/'`, and the cache is neither read nor written (the cache
state, including its hit/miss counters, is returned unchanged). -/
theorem normalize_level0_no_cache (p : JStr) (pc : Bool) (c : NCache) :
    normalizePathWithLevel p 0 pc c =
      ((if p = [] then js "/" else if p.head? = some '/' then p else '/' :: p),
       c) ∧
    (normalizePathWithLevel p 0 pc c).1.head? = some '/' := by
  constructor
  · unfold normalizePathWithLevel
    by_cases hp : p = [] <;> simp [hp]
  · unfold normalizePathWithLevel
    by_cases hp : p = []
    · simp [hp, js]
    · by_cases hh : p.head? = some '/' <;> simp [hp, hh, js]

/-! ## Map and cache lemmas -/

section MapLemmas

variable {K V : Type} [DecidableEq K]

/-- An absent key means no entry carries it. -/
theorem mapGet_none_iff {k : K} {m : List (K × V)} :
    mapGet k m = none ↔ ∀ e ∈ m, e.1 ≠ k := by
  simp [mapGet, List.find?_eq_none]

/-- The `mapHas` is false exactly when no entry carries the key. -/
theorem mapHas_false_iff {k : K} {m : List (K × V)} :
    mapHas k m = false ↔ ∀ e ∈ m, e.1 ≠ k := by
  simp [mapHas, List.find?_isSome]

/-- A hit produces an entry of the list with the looked-up key. -/
theorem mapGet_some_mem {k : K} {m : List (K × V)} {v : V}
    (h : mapGet k m = some v) : (k, v) ∈ m := by
  simp only [mapGet, Option.map_eq_some'] at h
  obtain ⟨e, he, hv⟩ := h
  have hm := List.mem_of_find?_eq_some he
  have hp := List.find?_some he
  simp only [decide_eq_true_eq] at hp
  have : e = (k, v) := by
    cases e
    simp_all
  rw [← this]
  exact hm

/-- Deleting a present key shrinks the list by exactly one entry. -/
theorem mapDel_length_of_get {k : K} {m : List (K × V)} {v : V}
    (h : mapGet k m = some v) : (mapDel k m).length + 1 = m.length := by
  simp only [mapGet, Option.map_eq_some'] at h
  obtain ⟨e, he, _⟩ := h
  have hm := List.mem_of_find?_eq_some he
  have hp := List.find?_some he
  have hlen : (m.eraseP fun e => decide (e.1 = k)).length = m.length - 1 :=
    List.length_eraseP_of_mem hm hp
  have hpos : 0 < m.length := List.length_pos.mpr (List.ne_nil_of_mem hm)
  unfold mapDel
  omega

/-- With unique keys, deleting a key removes it entirely. -/
theorem mapHas_mapDel_self {k : K} {m : List (K × V)}
    (hnd : (m.map Prod.fst).Nodup) : mapHas k (mapDel k m) = false := by
  induction m with
  | nil => rfl
  | cons e rest ih =>
    simp only [List.map_cons, List.nodup_cons] at hnd
    by_cases hk : e.1 = k
    · have h1 : mapDel k (e :: rest) = rest := by
        unfold mapDel
        apply List.eraseP_cons_of_pos
        simp [hk]
      rw [h1, mapHas_false_iff]
      intro x hx hxk
      have hx1 : x.1 ∈ rest.map Prod.fst := List.mem_map_of_mem Prod.fst hx
      rw [hxk, ← hk] at hx1
      exact hnd.1 hx1
    · have h1 : mapDel k (e :: rest) = e :: mapDel k rest := by
        unfold mapDel
        apply List.eraseP_cons_of_neg
        simp [hk]
      rw [h1, mapHas_false_iff]
      intro x hx
      rcases List.mem_cons.mp hx with hx | hx
      · subst hx; exact hk
      · exact (mapHas_false_iff.mp (ih hnd.2)) x hx

/-- The `mapSet` of an absent key appends. -/
theorem mapSet_absent {k : K} {v : V} {m : List (K × V)}
    (h : mapHas k m = false) : mapSet k v m = m ++ [(k, v)] := by
  simp [mapSet, h]

end MapLemmas

section CacheLemmas

variable {K V : Type} [DecidableEq K]

/-- Neither operation changes the capacity. -/
theorem cacheStep_maxSize (c : PerformanceCache K V) (op : CacheOp K V) :
    (cacheStep c op).maxSize = c.maxSize := by
  cases op with
  | get k =>
    show (PerformanceCache.get k c).2.maxSize = c.maxSize
    unfold PerformanceCache.get
    cases mapGet k c.cache <;> rfl
  | set k v => rfl

/-- A `get` never grows the store. -/
theorem get_length_le (k : K) (c : PerformanceCache K V) :
    (PerformanceCache.get k c).2.cache.length ≤ c.cache.length := by
  unfold PerformanceCache.get
  cases h : mapGet k c.cache with
  | none => simp
  | some v =>
    simp only
    have hdel := mapDel_length_of_get h
    by_cases hh : mapHas k (mapDel k c.cache)
    · simp only [mapSet, hh, if_true, List.length_map]
      omega
    · rw [mapSet_absent (by simpa using hh)]
      simp only [List.length_append, List.length_singleton]
      omega

/-- A `set` with the key present keeps the store within its old length. -/
theorem set_length_present (k : K) (v : V) (c : PerformanceCache K V)
    (h : mapHas k c.cache = true) :
    (PerformanceCache.set k v c).cache.length ≤ c.cache.length := by
  unfold PerformanceCache.set
  simp only [h, if_true]
  have hv : ∃ w, mapGet k c.cache = some w := by
    simp only [mapHas, Option.isSome_iff_exists] at h
    obtain ⟨e, he⟩ := h
    exact ⟨e.2, by simp [mapGet, he]⟩
  obtain ⟨w, hw⟩ := hv
  have hdel := mapDel_length_of_get hw
  by_cases hh : mapHas k (mapDel k c.cache)
  · simp only [mapSet, hh, if_true, List.length_map]
    omega
  · rw [mapSet_absent (by simpa using hh)]
    simp only [List.length_append, List.length_singleton]
    omega

/-- A fresh-key `set` below capacity appends. -/
theorem set_fresh_lt (k : K) (v : V) (c : PerformanceCache K V)
    (h : mapHas k c.cache = false) (hlt : c.cache.length < c.maxSize) :
    (PerformanceCache.set k v c).cache = c.cache ++ [(k, v)] := by
  unfold PerformanceCache.set
  simp only [h, Bool.false_eq_true, if_false, Nat.not_le.mpr hlt, ge_iff_le,
    if_neg (Nat.not_le.mpr hlt)]
  exact mapSet_absent h

/-- A fresh-key `set` at (or beyond) capacity evicts the first entry in
iteration order — the least-recently-used one — and appends. -/
theorem set_fresh_ge (k : K) (v : V) (c : PerformanceCache K V)
    (h : mapHas k c.cache = false) (hge : c.maxSize ≤ c.cache.length) :
    (PerformanceCache.set k v c).cache = c.cache.tail ++ [(k, v)] := by
  unfold PerformanceCache.set
  simp only [h, Bool.false_eq_true, if_false, ge_iff_le, if_pos hge]
  cases hc : c.cache with
  | nil =>
    simp only [hc, List.head?_nil]
    simp [mapSet, mapHas]
  | cons e rest =>
    simp only [hc, List.head?_cons, List.tail_cons]
    have hdel : mapDel e.1 (e :: rest) = rest := by
      unfold mapDel
      apply List.eraseP_cons_of_pos
      simp
    rw [hdel]
    have hfresh : mapHas k rest = false := by
      rw [mapHas_false_iff]
      intro x hx
      have hx2 : x ∈ c.cache := by
        rw [hc]
        exact List.mem_cons_of_mem e hx
      exact mapHas_false_iff.mp h x hx2
    exact mapSet_absent hfresh

/-- One step keeps the store within a positive capacity. -/
theorem cacheStep_size_le (c : PerformanceCache K V) (op : CacheOp K V)
    (h0 : 1 ≤ c.maxSize) (hle : c.cache.length ≤ c.maxSize) :
    (cacheStep c op).cache.length ≤ c.maxSize := by
  cases op with
  | get k => exact le_trans (get_length_le k c) hle
  | set k v =>
    by_cases hh : mapHas k c.cache
    · exact le_trans (set_length_present k v c hh) hle
    · by_cases hlt : c.cache.length < c.maxSize
      · rw [cacheStep, set_fresh_lt k v c (by simpa using hh) hlt]
        simp only [List.length_append, List.length_singleton]
        omega
      · rw [cacheStep, set_fresh_ge k v c (by simpa using hh) (by omega)]
        simp only [List.length_append, List.length_cons, List.length_nil,
          List.length_tail]
        omega

/-- Folding fresh, pairwise-distinct keys into a well-kept cache yields
`min (old + inserted) capacity` entries. -/
theorem foldl_set_size (pairs : List (K × V)) :
    ∀ (c : PerformanceCache K V),
    1 ≤ c.maxSize →
    (c.cache.map Prod.fst).Nodup →
    (pairs.map Prod.fst).Nodup →
    (∀ e ∈ c.cache, e.1 ∉ pairs.map Prod.fst) →
    c.cache.length ≤ c.maxSize →
    (pairs.foldl (fun acc p => PerformanceCache.set p.1 p.2 acc) c).cache.length
      = min (c.cache.length + pairs.length) c.maxSize := by
  induction pairs with
  | nil =>
    intro c _ _ _ _ hle
    simpa using Nat.min_eq_left hle
  | cons p rest ih =>
    intro c h0 h1 h2 h3 hle
    obtain ⟨k, v⟩ := p
    have hfresh : mapHas k c.cache = false := by
      rw [mapHas_false_iff]
      intro e he hek
      exact h3 e he (by rw [hek]; simp)
    simp only [List.map_cons, List.nodup_cons] at h2
    simp only [List.foldl_cons]
    by_cases hlt : c.cache.length < c.maxSize
    · have hset := set_fresh_lt k v c hfresh hlt
      have hres := ih (PerformanceCache.set k v c)
        (by simpa [PerformanceCache.set] using h0)
        (by rw [hset]; simp only [List.map_append, List.map_cons, List.map_nil]
            rw [List.nodup_append]
            refine ⟨h1, by simp, ?_⟩
            intro x hx
            simp only [List.mem_singleton]
            intro hxk
            subst hxk
            obtain ⟨e, he, hek⟩ := List.mem_map.mp hx
            exact absurd hek (mapHas_false_iff.mp hfresh e he))
        h2.2
        (by rw [hset]
            intro e he
            rcases List.mem_append.mp he with he | he
            · exact fun hm => h3 e he (List.mem_cons_of_mem _ hm)
            · simp only [List.mem_singleton] at he
              subst he
              exact h2.1)
        (by rw [hset]; simp only [List.length_append, List.length_singleton]
            simpa [PerformanceCache.set] using Nat.succ_le_of_lt hlt)
      rw [hres, hset]
      simp only [List.length_append, List.length_cons, List.length_nil]
      have hms : (PerformanceCache.set k v c).maxSize = c.maxSize := rfl
      rw [hms]
      omega
    · have hge : c.maxSize ≤ c.cache.length := by omega
      have hset := set_fresh_ge k v c hfresh hge
      have hclen : 1 ≤ c.cache.length := le_trans h0 hge
      obtain ⟨e0, rest0, hc⟩ : ∃ e0 rest0, c.cache = e0 :: rest0 := by
        cases hcc : c.cache with
        | nil => rw [hcc] at hclen; simp at hclen
        | cons a b => exact ⟨a, b, rfl⟩
      have hres := ih (PerformanceCache.set k v c)
        (by simpa [PerformanceCache.set] using h0)
        (by rw [hset, hc]
            simp only [List.tail_cons, List.map_append, List.map_cons,
              List.map_nil]
            rw [List.nodup_append]
            rw [hc] at h1
            simp only [List.map_cons, List.nodup_cons] at h1
            refine ⟨h1.2, by simp, ?_⟩
            intro x hx
            simp only [List.mem_singleton]
            intro hxk
            subst hxk
            obtain ⟨e, he, hek⟩ := List.mem_map.mp hx
            exact absurd hek (mapHas_false_iff.mp hfresh e
              (by rw [hc]; exact List.mem_cons_of_mem e0 he)))
        h2.2
        (by rw [hset, hc]
            simp only [List.tail_cons]
            intro e he
            rcases List.mem_append.mp he with he | he
            · exact fun hm => h3 e (by rw [hc]; exact List.mem_cons_of_mem e0 he)
                (List.mem_cons_of_mem _ hm)
            · simp only [List.mem_singleton] at he
              subst he
              exact h2.1)
        (by rw [hset, hc]
            simp only [List.tail_cons, List.length_append, List.length_singleton]
            rw [hc] at hle
            simp only [List.length_cons] at hle
            simpa [PerformanceCache.set] using hle)
      rw [hres, hset, hc]
      simp only [List.tail_cons, List.length_append, List.length_cons,
        List.length_nil]
      rw [hc] at hle hge
      simp only [List.length_cons] at hle hge
      have hms : (PerformanceCache.set k v c).maxSize = c.maxSize := rfl
      rw [hms]
      omega

end CacheLemmas

/-- Any operation sequence keeps a well-sized cache within capacity. -/
theorem cacheRun_size_le {K V : Type} [DecidableEq K] (ops : List (CacheOp K V)) :
    ∀ c : PerformanceCache K V, 1 ≤ c.maxSize → c.cache.length ≤ c.maxSize →
    (cacheRun c ops).cache.length ≤ c.maxSize := by
  induction ops with
  | nil => intro c _ h; exact h
  | cons op rest ih =>
    intro c h0 hle
    have h1 := cacheStep_size_le c op h0 hle
    have hm := cacheStep_maxSize c op
    have h2 := ih (cacheStep c op) (by rw [hm]; exact h0) (by rw [hm]; exact h1)
    rw [hm] at h2
    exact h2

/-! ## Claim C7 — LRU bound and eviction order -/

/-- C7: for capacity `N ≥ 1`, (1) any get/set sequence from the empty
cache stays within `N` entries; (2) inserting at least `N` pairwise
distinct keys leaves exactly `N` entries; (3) a fresh-key `set` at
capacity evicts the first key in iteration order (the least recently
used) and appends the new entry at the most-recently-used end; (4) a
`get` hit returns the value and moves its entry to the most-recently-used
end; and (5) a `set` of an existing key re-inserts it at the
most-recently-used end. -/
theorem cache_lru_bound {K V : Type} [DecidableEq K] (N : Nat) (hN : 1 ≤ N) :
    (∀ ops : List (CacheOp K V),
      (cacheRun (PerformanceCache.mk0 N) ops).cache.length ≤ N) ∧
    (∀ pairs : List (K × V), (pairs.map Prod.fst).Nodup → N ≤ pairs.length →
      (pairs.foldl (fun acc p => PerformanceCache.set p.1 p.2 acc)
        (PerformanceCache.mk0 N)).cache.length = N) ∧
    (∀ (c : PerformanceCache K V) (k : K) (v : V), c.maxSize = N →
      mapHas k c.cache = false → N ≤ c.cache.length →
      (PerformanceCache.set k v c).cache = c.cache.tail ++ [(k, v)]) ∧
    (∀ (c : PerformanceCache K V) (k : K) (v : V), c.maxSize = N →
      (c.cache.map Prod.fst).Nodup → mapGet k c.cache = some v →
      (PerformanceCache.get k c).1 = some v ∧
      (PerformanceCache.get k c).2.cache = mapDel k c.cache ++ [(k, v)]) ∧
    (∀ (c : PerformanceCache K V) (k : K) (v : V), c.maxSize = N →
      (c.cache.map Prod.fst).Nodup → mapHas k c.cache = true →
      (PerformanceCache.set k v c).cache = mapDel k c.cache ++ [(k, v)]) := by
  refine ⟨?_, ?_, ?_, ?_, ?_⟩
  · intro ops
    exact cacheRun_size_le ops (PerformanceCache.mk0 N) hN (by simp [PerformanceCache.mk0])
  · intro pairs hnd hlen
    have h := foldl_set_size pairs (PerformanceCache.mk0 N) hN
      (by simp [PerformanceCache.mk0]) hnd
      (by simp [PerformanceCache.mk0]) (by simp [PerformanceCache.mk0])
    simp only [PerformanceCache.mk0] at h ⊢
    rw [h]
    simp only [List.length_nil, Nat.zero_add]
    omega
  · intro c k v hms hfresh hge
    exact set_fresh_ge k v c hfresh (by rw [hms]; exact hge)
  · intro c k v _ hnd hget
    constructor
    · unfold PerformanceCache.get
      rw [hget]
    · unfold PerformanceCache.get
      rw [hget]
      simp only
      exact mapSet_absent (mapHas_mapDel_self hnd)
  · intro c k v _ hnd hhas
    unfold PerformanceCache.set
    simp only [hhas, if_true]
    exact mapSet_absent (mapHas_mapDel_self hnd)

/-- C7 witness: capacity 2 over `Nat` keys — a four-operation run stays
within bound, three distinct inserts leave two entries, and the eviction
and recency-refresh equations at a concrete full cache. -/
theorem cache_lru_bound_witness :
    (cacheRun (PerformanceCache.mk0 (K := Nat) (V := Nat) 2)
      [ .set 1 10, .set 2 20, .get 1, .set 3 30 ]).cache.length ≤ 2 ∧
    ([((1 : Nat), (10 : Nat)), (2, 20), (3, 30)].foldl
      (fun acc p => PerformanceCache.set p.1 p.2 acc)
      (PerformanceCache.mk0 2)).cache.length = 2 ∧
    (PerformanceCache.set 3 30
      ({ cache := [((1 : Nat), (10 : Nat)), (2, 20)], hits := 0, misses := 0,
         maxSize := 2 })).cache
      = [((1 : Nat), (10 : Nat)), (2, 20)].tail ++ [(3, 30)] ∧
    (PerformanceCache.get 1
      ({ cache := [((1 : Nat), (10 : Nat)), (2, 20)], hits := 0, misses := 0,
         maxSize := 2 })).2.cache
      = mapDel 1 [((1 : Nat), (10 : Nat)), (2, 20)] ++ [(1, 10)] ∧
    (PerformanceCache.set 2 99
      ({ cache := [((1 : Nat), (10 : Nat)), (2, 20)], hits := 0, misses := 0,
         maxSize := 2 })).cache
      = mapDel 2 [((1 : Nat), (10 : Nat)), (2, 20)] ++ [(2, 99)] :=
  ⟨(cache_lru_bound 2 (by decide)).1 _,
   (cache_lru_bound 2 (by decide)).2.1 _ (by decide) (by decide),
   (cache_lru_bound 2 (by decide)).2.2.1 _ 3 30 rfl (by decide) (by decide),
   ((cache_lru_bound 2 (by decide)).2.2.2.1 _ 1 10 rfl (by decide) (by decide)).2,
   (cache_lru_bound 2 (by decide)).2.2.2.2 _ 2 99 rfl (by decide) (by decide)⟩

/-! ## Segment-grammar lemmas -/

/-- The `takeWhile` keeps a list all of whose elements satisfy the predicate. -/
theorem takeWhile_all {α : Type} {p : α → Bool} :
    ∀ {l : List α}, (∀ c ∈ l, p c = true) → l.takeWhile p = l
  | [], _ => rfl
  | x :: xs, h => by
    rw [List.takeWhile_cons_of_pos (h x (by simp))]
    rw [takeWhile_all (fun c hc => h c (List.mem_cons_of_mem x hc))]

/-- The last character of `':' a '-' ':' b` is the last character of
`b`, for nonempty `b`. -/
theorem getLast?_colon_chain (a b : JStr) (hb : b ≠ []) :
    (':' :: (a ++ '-' :: ':' :: b)).getLast? = b.getLast? := by
  have h : (':' :: (a ++ '-' :: ':' :: b)) = ((':' :: a) ++ [ '-', ':' ]) ++ b := by
    simp
  rw [h, List.getLast?_append]
  cases hbl : b.getLast? with
  | none => exact absurd (List.getLast?_eq_none_iff.mp hbl) hb
  | some x => simp

/-- On a fragment `':' nameA '-' ':' nameB` (optionally followed by `'?'`)
where `nameA` is a nonempty run without `'-'`, `':'` or `'('`, and
`nameB` is nonempty, free of `'('` and line terminators, and does not end
in `'*'` or `'?'`, the segment parser fires the fastify multi-param rule:
type `param`, `paramName = nameA ++ "-" ++ nameB`, normalized
`":param-:param"`. -/
theorem parse_fastify_compound (a b : JStr) (opt : Bool)
    (ha : a ≠ []) (haC : ∀ c ∈ a, c ≠ '-' ∧ c ≠ ':' ∧ c ≠ '(')
    (hb : b ≠ []) (hbC : ∀ c ∈ b, isLineTerm c = false ∧ c ≠ '(')
    (hbStar : b.getLast? ≠ some '*') (hbQ : b.getLast? ≠ some '?') :
    parsePathSegment
        ((':' :: (a ++ '-' :: ':' :: b)) ++ if opt then [ '?' ] else [])
      = { raw := (':' :: (a ++ '-' :: ':' :: b)) ++ if opt then [ '?' ] else [],
          type := .param, normalized := js ":param-:param",
          paramName := some (a ++ '-' :: b) } := by
  have hW : wildcardMatch (':' :: (a ++ '-' :: ':' :: b)) = none := by
    have hl : (a ++ '-' :: ':' :: b).getLast? = b.getLast? := by
      have h : a ++ '-' :: ':' :: b = (a ++ [ '-', ':' ]) ++ b := by simp
      rw [h, List.getLast?_append]
      cases hbl : b.getLast? with
      | none => exact absurd (List.getLast?_eq_none_iff.mp hbl) hb
      | some x => simp
    unfold wildcardMatch
    simp only [List.head?_cons, List.tail_cons]
    rw [if_pos trivial]
    simp [hl, hbStar]
  have hR : regexMatch (':' :: (a ++ '-' :: ':' :: b)) = none := by
    have ht : (a ++ '-' :: ':' :: b).takeWhile (fun c => c ≠ '(')
        = a ++ '-' :: ':' :: b := by
      apply takeWhile_all
      intro c hc
      rcases List.mem_append.mp hc with hc | hc
      · simp [(haC c hc).2.2]
      · rcases List.mem_cons.mp hc with hc | hc
        · subst hc; decide
        · rcases List.mem_cons.mp hc with hc | hc
          · subst hc; decide
          · simp [(hbC c hc).2]
    unfold regexMatch
    simp only [List.head?_cons, List.tail_cons]
    rw [if_pos trivial]
    simp only [ht, List.drop_length]
    simp
  have hF : fastifyMultiParamMatch (':' :: (a ++ '-' :: ':' :: b))
      = some (a, b) := by
    have ht : (a ++ '-' :: ':' :: b).takeWhile (fun c => c ≠ '-' && c ≠ ':')
        = a := by
      rw [List.takeWhile_append_of_pos
        (fun c hc => by simp [(haC c hc).1, (haC c hc).2.1])]
      rw [List.takeWhile_cons_of_neg (by decide)]
      simp
    have hall : b.all (fun c => !isLineTerm c) = true := by
      rw [List.all_eq_true]
      intro c hc
      simp [(hbC c hc).1]
    unfold fastifyMultiParamMatch
    simp only [List.head?_cons, List.tail_cons]
    rw [if_pos trivial]
    have hd : (a ++ '-' :: ':' :: b).drop a.length = '-' :: ':' :: b :=
      List.drop_left' rfl
    simp only [ht, hd]
    simp [ha, hb, hall]
  have hlast : (':' :: (a ++ '-' :: ':' :: b)).getLast? = b.getLast? :=
    getLast?_colon_chain a b hb
  cases opt with
  | false =>
    simp only [Bool.false_eq_true, if_false, List.append_nil]
    unfold parsePathSegment
    rw [if_neg (by simp)]
    rw [if_neg (by
      have h1 : js "*" = [ '*' ] := by decide
      have h2 : js "**" = [ '*', '*' ] := by decide
      rw [h1, h2]
      rintro (h | h) <;> simp at h)]
    rw [if_pos (by simp)]
    simp only [hlast]
    rw [if_neg hbQ]
    simp only [hW, hR, hF]
  | true =>
    rw [if_pos rfl]
    unfold parsePathSegment
    rw [if_neg (by simp)]
    rw [if_neg (by
      have h1 : js "*" = [ '*' ] := by decide
      have h2 : js "**" = [ '*', '*' ] := by decide
      rw [h1, h2]
      rintro (h | h) <;> simp at h)]
    rw [if_pos (by simp)]
    have hl2 : ((':' :: (a ++ '-' :: ':' :: b)) ++ [ '?' ]).getLast?
        = some '?' := List.getLast?_concat _
    simp only [hl2]
    simp only [if_true]
    have hdl : ((':' :: (a ++ '-' :: ':' :: b)) ++ [ '?' ]).dropLast
        = ':' :: (a ++ '-' :: ':' :: b) := List.dropLast_concat
    simp only [hdl, hW, hR, hF]

/-- C2 counterexample: the fragment `":height-width"` — two bare names
joined by one hyphen, with no colon before the second name — is *not*
normalized to `":param-:param"`: the multi-param rule requires the form
`":nameA-:nameB"`, so this fragment falls through to a plain parameter
with normalized `":param"` (its `paramName` does come out as
`"height-width"`). -/
theorem parse_bare_hyphen_not_compound :
    (parsePathSegment (js ":height-width")).normalized = js ":param" ∧
    (parsePathSegment (js ":height-width")).type = .param ∧
    (parsePathSegment (js ":height-width")).paramName = some (js "height-width") ∧
    ¬((parsePathSegment (js ":height-width")).normalized = js ":param-:param") := by
  decide

/-- C2 witness: the archetypal fastify compound fragment
`":height-:width"`. -/
theorem parse_fastify_compound_witness :
    parsePathSegment (js ":height-:width")
      = { raw := js ":height-:width", type := .param,
          normalized := js ":param-:param", constraint := none,
          paramName := some (js "height-width") } := by
  have heq : (':' :: (js "height" ++ '-' :: ':' :: js "width")) ++
      (if false then [ '?' ] else []) = js ":height-:width" := by decide
  have h := parse_fastify_compound (js "height") (js "width") false
    (by decide) (by decide) (by decide) (by decide) (by decide) (by decide)
  rw [heq] at h
  rw [h]
  decide

/-- The classification/normalization shape of every parsed segment: a
static segment keeps its raw text, and every other kind normalizes to one
of the four canonical tokens. -/
theorem parsePathSegment_shape (s : JStr) :
    ((parsePathSegment s).type = .static ∧
      (parsePathSegment s).normalized = s ∧ (parsePathSegment s).raw = s) ∨
    ((parsePathSegment s).type = .wildcard ∧
      (parsePathSegment s).normalized = js "*") ∨
    ((parsePathSegment s).type = .regexParam ∧
      (parsePathSegment s).normalized = js ":param") ∨
    ((parsePathSegment s).type = .param ∧
      ((parsePathSegment s).normalized = js ":param-:param" ∨
        (parsePathSegment s).normalized = js ":param")) ∨
    ((parsePathSegment s).type = .optionalParam ∧
      (parsePathSegment s).normalized = js ":param?") := by
  simp only [parsePathSegment]
  by_cases h1 : s = []
  · simp [h1]
  · rw [if_neg h1]
    by_cases h2 : s = js "*" ∨ s = js "**"
    · rw [if_pos h2]
      exact Or.inr (Or.inl ⟨rfl, rfl⟩)
    · rw [if_neg h2]
      by_cases h3 : s.head? = some ':'
      · rw [if_pos h3]
        cases hw : wildcardMatch (if s.getLast? = some '?' then s.dropLast else s) with
        | some pn => exact Or.inr (Or.inl ⟨rfl, rfl⟩)
        | none =>
          cases hr : regexMatch (if s.getLast? = some '?' then s.dropLast else s) with
          | some nc => exact Or.inr (Or.inr (Or.inl ⟨rfl, rfl⟩))
          | none =>
            cases hf : fastifyMultiParamMatch
                (if s.getLast? = some '?' then s.dropLast else s) with
            | some ab => exact Or.inr (Or.inr (Or.inr (Or.inl ⟨rfl, Or.inl rfl⟩)))
            | none =>
              by_cases ho : s.getLast? = some '?'
              · simp only [ho, if_pos rfl]
                exact Or.inr (Or.inr (Or.inr (Or.inr ⟨by simp, by simp⟩)))
              · simp only [if_neg ho]
                exact Or.inr (Or.inr (Or.inr (Or.inl ⟨by simp [ho], Or.inr (by simp [ho])⟩)))
      · rw [if_neg h3]
        exact Or.inl ⟨rfl, rfl, rfl⟩

/-! ## Claim C5 — constrained parameters always normalize to `":param"` -/

/-- C5: at levels 1 and 2, for either value of `preserveConstraints`,
every constrained-parameter segment of a parsed path contributes exactly
`":param"` to the normalized output — the constraint text is never
emitted. -/
theorem regex_param_normalizes_to_param (p : JStr) (L : Nat) (pc : Bool)
    (seg : SegmentInfo) (hL : L = 1 ∨ L = 2)
    (hmem : seg ∈ parsePathSegments p) (htype : seg.type = .regexParam) :
    segProject L pc seg = js ":param" := by
  obtain ⟨r, _, hseg⟩ := List.mem_map.mp hmem
  have hnorm : seg.normalized = js ":param" := by
    subst hseg
    rcases parsePathSegment_shape r with h | h | h | h | h
    · rw [h.1] at htype; exact absurd htype (by decide)
    · rw [h.1] at htype; exact absurd htype (by decide)
    · exact h.2
    · rw [h.1] at htype; exact absurd htype (by decide)
    · rw [h.1] at htype; exact absurd htype (by decide)
  rcases hL with h | h <;> subst h
  · simp [segProject, hnorm]
  · cases pc <;> simp [segProject, htype, hnorm]

/-- C5 witness: the constrained segment of `"/:id(\d+)/x"` at level 2
with `preserveConstraints = true`. -/
theorem regex_param_normalizes_to_param_witness :
    segProject 2 true (parsePathSegment (js ":id(\\d+)")) = js ":param" :=
  regex_param_normalizes_to_param (js "/:id(\\d+)/x") 2 true
    (parsePathSegment (js ":id(\\d+)")) (Or.inr rfl) (by decide) (by decide)

section MapLemmas2

variable {K V : Type} [DecidableEq K]

/-- Lookup in an appended singleton decomposes. -/
theorem mapGet_append_singleton {k key : K} {v w : V} {m : List (K × V)}
    (h : mapGet k (m ++ [(key, v)]) = some w) :
    mapGet k m = some w ∨ (mapGet k m = none ∧ k = key ∧ w = v) := by
  simp only [mapGet, List.find?_append] at h
  cases hm : m.find? (fun e => e.1 = k) with
  | some e =>
    rw [hm] at h
    simp only [Option.or_some] at h
    left
    simp only [mapGet, hm]
    simpa using h
  | none =>
    rw [hm] at h
    simp only [Option.none_or] at h
    right
    refine ⟨by simp [mapGet, hm], ?_⟩
    cases hkk : (decide (key = k)) with
    | false => simp [List.find?, hkk] at h
    | true =>
      simp only [List.find?, hkk] at h
      simp only [Option.map_some'] at h
      exact ⟨by simpa using (decide_eq_true_eq.mp hkk).symm, by simpa using h.symm⟩

/-- With unique keys, a stored entry is what lookup returns. -/
theorem mapGet_of_mem_nodup {k : K} {w : V} {m : List (K × V)}
    (hnd : (m.map Prod.fst).Nodup) (hmem : (k, w) ∈ m) :
    mapGet k m = some w := by
  induction m with
  | nil => simp at hmem
  | cons e rest ih =>
    simp only [List.map_cons, List.nodup_cons] at hnd
    rcases List.mem_cons.mp hmem with hmem | hmem
    · subst hmem
      simp [mapGet, List.find?]
    · by_cases hk : e.1 = k
      · exfalso
        have : k ∈ rest.map Prod.fst := by
          rw [show k = (k, w).1 from rfl]
          exact List.mem_map_of_mem Prod.fst hmem
        rw [← hk] at this
        exact hnd.1 this
      · have hd : (decide (e.1 = k)) = false := by simpa using hk
        simp only [mapGet, List.find?, hd]
        exact ih hnd.2 hmem

/-- The keys of a `mapDel` stay duplicate-free. -/
theorem nodup_keys_mapDel (k : K) {m : List (K × V)}
    (hnd : (m.map Prod.fst).Nodup) : ((mapDel k m).map Prod.fst).Nodup :=
  ((List.eraseP_sublist m).map Prod.fst).nodup hnd

/-- Entries of a `mapDel` are entries of the original map. -/
theorem mem_mapDel_subset {k : K} {e : K × V} {m : List (K × V)}
    (h : e ∈ mapDel k m) : e ∈ m :=
  List.mem_of_mem_eraseP h

end MapLemmas2

/-- The two decimal digits that can appear in a cache key's level. -/
theorem toDigits_one_two :
    Nat.toDigits 10 1 = [ '1' ] ∧ Nat.toDigits 10 2 = [ '2' ] := by decide

/-- Cache keys are injective on the levels that are ever cached. -/
theorem normCacheKey_inj {p q : JStr} {L M : Nat} {pb qb : Bool}
    (hL : L = 1 ∨ L = 2) (hM : M = 1 ∨ M = 2)
    (h : normCacheKey p L pb = normCacheKey q M qb) :
    p = q ∧ L = M ∧ pb = qb := by
  have d1 : Nat.toDigits 10 1 = [ '1' ] := toDigits_one_two.1
  have d2 : Nat.toDigits 10 2 = [ '2' ] := toDigits_one_two.2
  have jf : js "false" = [ 'f', 'a', 'l', 's', 'e' ] := by decide
  have jt : js "true" = [ 't', 'r', 'u', 'e' ] := by decide
  rcases hL with rfl | rfl <;> rcases hM with rfl | rfl <;>
    cases pb <;> cases qb <;>
    simp only [normCacheKey, d1, d2, jf, jt, if_true, if_false,
      Bool.false_eq_true, List.cons_append, List.nil_append,
      List.append_assoc] at h <;>
  first
  | exact ⟨(List.append_inj' h rfl).1, rfl, rfl⟩
  | (have h7 := congrArg (fun l : JStr => l.reverse.take 7) h
     simp only [List.reverse_append] at h7
     rw [List.take_append_of_le_length (by decide),
       List.take_append_of_le_length (by decide)] at h7
     exact absurd h7 (by decide))

/-- The miss-path computation always starts with a slash. -/
theorem normalizeCompute_head (p : JStr) (L : Nat) (pc : Bool) :
    (normalizeCompute p L pc).head? = some '/' := by
  simp only [normalizeCompute]
  split
  · rfl
  · rfl

/-- The miss-path computation is a truthy (nonempty) string. -/
theorem normalizeCompute_truthy (p : JStr) (L : Nat) (pc : Bool) :
    truthyStr (normalizeCompute p L pc) = true := by
  have h := normalizeCompute_head p L pc
  cases hc : normalizeCompute p L pc with
  | nil => rw [hc] at h; simp at h
  | cons a l => rfl

/-- Appending a correct entry to a subset of a well-formed cache's
entries (with the new key fresh) keeps the cache well-formed. -/
theorem normCacheWF_of_append (c c' : NCache) (base : List (JStr × JStr))
    (p : JStr) (L : Nat) (pc : Bool) (hL : L = 1 ∨ L = 2)
    (hwf : normCacheWF c)
    (hsub : ∀ e ∈ base, e ∈ c.cache)
    (hbnd : (base.map Prod.fst).Nodup)
    (hfresh : mapHas (normCacheKey p L pc) base = false)
    (hc' : c'.cache = base ++ [(normCacheKey p L pc, normalizeCompute p L pc)]) :
    normCacheWF c' := by
  constructor
  · rw [hc']
    simp only [List.map_append, List.map_cons, List.map_nil]
    rw [List.nodup_append]
    refine ⟨hbnd, by simp, ?_⟩
    intro x hx
    simp only [List.mem_singleton]
    intro hxk
    subst hxk
    obtain ⟨e, he, hek⟩ := List.mem_map.mp hx
    exact absurd hek (mapHas_false_iff.mp hfresh e he)
  · intro q M qc w hM hlook
    rw [hc'] at hlook
    rcases mapGet_append_singleton hlook with hl | ⟨_, hkk, hwv⟩
    · have hmem := mapGet_some_mem hl
      have hget := mapGet_of_mem_nodup hwf.1 (hsub _ hmem)
      exact hwf.2 q M qc w hM hget
    · subst hwv
      obtain ⟨hpq, hLM, hpcq⟩ := normCacheKey_inj hM hL hkk
      rw [hpq, hLM, hpcq]

/-- A `get` preserves cache well-formedness. -/
theorem normCacheWF_get (c : NCache) (k : JStr) (hwf : normCacheWF c) :
    normCacheWF (PerformanceCache.get k c).2 := by
  unfold PerformanceCache.get
  cases hg : mapGet k c.cache with
  | none => exact ⟨hwf.1, hwf.2⟩
  | some v =>
    simp only
    constructor
    · rw [mapSet_absent (mapHas_mapDel_self hwf.1)]
      simp only [List.map_append, List.map_cons, List.map_nil]
      rw [List.nodup_append]
      refine ⟨nodup_keys_mapDel k hwf.1, by simp, ?_⟩
      intro x hx
      simp only [List.mem_singleton]
      intro hxk
      subst hxk
      obtain ⟨e, he, hek⟩ := List.mem_map.mp hx
      exact absurd hek (mapHas_false_iff.mp (mapHas_mapDel_self hwf.1) e he)
    · intro q M qc w hM hlook
      rw [mapSet_absent (mapHas_mapDel_self hwf.1)] at hlook
      rcases mapGet_append_singleton hlook with hl | ⟨_, hkk, hwv⟩
      · have hmem := mapGet_some_mem hl
        have hget := mapGet_of_mem_nodup hwf.1 (mem_mapDel_subset hmem)
        exact hwf.2 q M qc w hM hget
      · rw [hwv]
        exact hwf.2 q M qc v hM (by rw [hkk]; exact hg)

/-- Storing the freshly computed normalization of a missing key preserves
cache well-formedness (including through an eviction). -/
theorem normCacheWF_set_fresh (c : NCache) (p : JStr) (L : Nat) (pc : Bool)
    (hL : L = 1 ∨ L = 2) (hwf : normCacheWF c)
    (hfresh : mapGet (normCacheKey p L pc) c.cache = none) :
    normCacheWF (PerformanceCache.set (normCacheKey p L pc)
      (normalizeCompute p L pc) c) := by
  have hhas : mapHas (normCacheKey p L pc) c.cache = false := by
    simp only [mapHas]
    simp only [mapGet] at hfresh
    cases hf : c.cache.find? (fun e => e.1 = normCacheKey p L pc) with
    | none => rfl
    | some e => rw [hf] at hfresh; simp at hfresh
  unfold PerformanceCache.set
  simp only [hhas, Bool.false_eq_true, if_false]
  by_cases hcap : c.cache.length ≥ c.maxSize
  · rw [if_pos hcap]
    cases hh : c.cache.head? with
    | none =>
      exact normCacheWF_of_append c _ c.cache p L pc hL hwf (fun e he => he)
        hwf.1 hhas (mapSet_absent hhas)
    | some e =>
      have hfr2 : mapHas (normCacheKey p L pc) (mapDel e.1 c.cache) = false := by
        rw [mapHas_false_iff]
        intro x hx
        exact mapHas_false_iff.mp hhas x (mem_mapDel_subset hx)
      exact normCacheWF_of_append c _ (mapDel e.1 c.cache) p L pc hL hwf
        (fun x hx => mem_mapDel_subset hx) (nodup_keys_mapDel _ hwf.1)
        hfr2 (mapSet_absent hfr2)
  · rw [if_neg hcap]
    exact normCacheWF_of_append c _ c.cache p L pc hL hwf (fun e he => he)
      hwf.1 hhas (mapSet_absent hhas)

/-- Reduction of `normalizePathWithLevel` for a nonempty path at a
nonzero level. -/
theorem normalizePathWithLevel_reduce (p : JStr) (L : Nat) (pc : Bool)
    (c : NCache) (hp : p ≠ []) (h0 : L ≠ 0) :
    normalizePathWithLevel p L pc c =
      match PerformanceCache.get (normCacheKey p L pc) c with
      | (some cached, c1) =>
        if truthyStr cached then (cached, c1)
        else (normalizeCompute p L pc,
          PerformanceCache.set (normCacheKey p L pc)
            (normalizeCompute p L pc) c1)
      | (none, c1) =>
        (normalizeCompute p L pc,
          PerformanceCache.set (normCacheKey p L pc)
            (normalizeCompute p L pc) c1) := by
  unfold normalizePathWithLevel
  rw [if_neg hp, if_neg h0]

/-- The memoized normalizer agrees with the cache-free computation on any
well-formed cache, and leaves the cache well-formed. -/
theorem normalizePathWithLevel_agree (p : JStr) (L : Nat) (pc : Bool)
    (c : NCache) (hL : L ≤ 2) (hwf : normCacheWF c) :
    (normalizePathWithLevel p L pc c).1 = normalizePathCore p L pc ∧
    normCacheWF (normalizePathWithLevel p L pc c).2 := by
  by_cases hp : p = []
  · constructor
    · simp [normalizePathWithLevel, normalizePathCore, hp]
    · simp only [normalizePathWithLevel, hp, if_pos rfl]
      exact hwf
  · by_cases h0 : L = 0
    · constructor
      · simp [normalizePathWithLevel, normalizePathCore, hp, h0]
      · simp only [normalizePathWithLevel, h0]
        rw [if_neg hp]
        simp only [if_true]
        exact hwf
    · have hL12 : L = 1 ∨ L = 2 := by omega
      have hcore : normalizePathCore p L pc = normalizeCompute p L pc := by
        unfold normalizePathCore
        rw [if_neg hp, if_neg h0]
      cases hg : mapGet (normCacheKey p L pc) c.cache with
      | some v =>
        have hv : v = normalizeCompute p L pc := hwf.2 p L pc v hL12 hg
        have hget : PerformanceCache.get (normCacheKey p L pc) c
            = (some v, (PerformanceCache.get (normCacheKey p L pc) c).2) := by
          unfold PerformanceCache.get
          rw [hg]
        rw [normalizePathWithLevel_reduce p L pc c hp h0, hget]
        simp only [hv, normalizeCompute_truthy, if_true]
        exact ⟨hcore.symm, normCacheWF_get c (normCacheKey p L pc) hwf⟩
      | none =>
        have hget : PerformanceCache.get (normCacheKey p L pc) c
            = (none, { c with misses := c.misses + 1 }) := by
          unfold PerformanceCache.get
          rw [hg]
        rw [normalizePathWithLevel_reduce p L pc c hp h0, hget]
        refine ⟨hcore.symm, ?_⟩
        exact normCacheWF_set_fresh ({ c with misses := c.misses + 1 })
          p L pc hL12 ⟨hwf.1, hwf.2⟩ hg

/-- The empty cache is well-formed. -/
theorem normCacheWF_empty (n : Nat) :
    normCacheWF (PerformanceCache.mk0 n) := by
  constructor
  · simp [PerformanceCache.mk0]
  · intro p L pc v _ hlook
    simp [PerformanceCache.mk0, mapGet] at hlook

/-- If no index-aligned pair fires a stop, the detector's loop finds
nothing. -/
theorem findSegConflict_none (pairs : List (SegmentInfo × SegmentInfo))
    (h : ∀ pr ∈ pairs, segPairStop pr.1 pr.2 = none) :
    findSegConflict pairs = none := by
  induction pairs with
  | nil => rfl
  | cons pr rest ih =>
    obtain ⟨s1, s2⟩ := pr
    unfold findSegConflict
    rw [h (s1, s2) (by simp)]
    exact ih (fun q hq => h q (List.mem_cons_of_mem _ hq))

/-! ## Claim C1 — the detector's rule 4 -/

/-- C1: when the raw paths differ, the segment counts agree, and no
index-aligned pair triggers a wildcard, static-vs-dynamic or
different-constraints stop, the detector returns `paramNameConflict`
exactly when the level-normalized forms coincide and the level is
positive, and `none` otherwise. -/
theorem detect_rule4 (p1 p2 : JStr) (L : Nat) (c : NCache)
    (hL : L ≤ 2) (hwf : normCacheWF c) (hne : p1 ≠ p2)
    (hlen : (parsePathSegments p1).length = (parsePathSegments p2).length)
    (hstops : ∀ pr ∈ (parsePathSegments p1).zip (parsePathSegments p2),
      segPairStop pr.1 pr.2 = none) :
    (detectPathConflict p1 p2 L c).1.type =
      (if normalizePathCore p1 L false = normalizePathCore p2 L false ∧ 0 < L
       then ConflictType.PARAM_NAME_CONFLICT else ConflictType.NONE) := by
  obtain ⟨h1, hwf1⟩ := normalizePathWithLevel_agree p1 L false c hL hwf
  obtain ⟨h2, _⟩ := normalizePathWithLevel_agree p2 L false
    ((normalizePathWithLevel p1 L false c).2) hL hwf1
  simp only [detectPathConflict]
  rw [if_neg hne]
  rw [if_neg (by exact fun h => h hlen)]
  rw [findSegConflict_none _ hstops]
  rw [show normalizePathWithLevel p1 L false c
      = (normalizePathCore p1 L false,
         (normalizePathWithLevel p1 L false c).2) from Prod.ext h1 rfl]
  rw [show normalizePathWithLevel p2 L false
        ((normalizePathWithLevel p1 L false c).2)
      = (normalizePathCore p2 L false,
         (normalizePathWithLevel p2 L false
           ((normalizePathWithLevel p1 L false c).2)).2) from Prod.ext h2 rfl]
  by_cases hcond : normalizePathCore p1 L false = normalizePathCore p2 L false
      ∧ 0 < L
  · rw [if_pos hcond]
    simp [hcond]
  · rw [if_neg hcond]
    simp [hcond]

/-- C1 witness: `detect("/users/:id", "/users/:userId")` yields
`paramNameConflict` at level 1 and `none` at level 0. -/
theorem detect_rule4_witness :
    (detectPathConflict (js "/users/:id") (js "/users/:userId") 1
      (PerformanceCache.mk0 2000)).1.type = ConflictType.PARAM_NAME_CONFLICT ∧
    (detectPathConflict (js "/users/:id") (js "/users/:userId") 0
      (PerformanceCache.mk0 2000)).1.type = ConflictType.NONE := by
  constructor
  · rw [detect_rule4 (js "/users/:id") (js "/users/:userId") 1
      (PerformanceCache.mk0 2000) (by decide) (normCacheWF_empty 2000)
      (by decide) (by decide) (by decide)]
    decide
  · rw [detect_rule4 (js "/users/:id") (js "/users/:userId") 0
      (PerformanceCache.mk0 2000) (by decide) (normCacheWF_empty 2000)
      (by decide) (by decide) (by decide)]
    decide

/-! ## Idempotence of normalization -/

/-- No fragment produced by `splitOn '/'` contains a slash. -/
theorem mem_splitOn_slash_free :
    ∀ (l : JStr) (x : JStr), x ∈ l.splitOn '/' → '/' ∉ x := by
  intro l
  induction l with
  | nil =>
    intro x hx
    simp only [List.splitOn, List.splitOnP_nil, List.mem_singleton] at hx
    subst hx
    simp
  | cons c rest ih =>
    intro x hx
    simp only [List.splitOn] at hx ih
    rw [List.splitOnP_cons] at hx
    by_cases hc : c = '/'
    · rw [if_pos (by simp [hc])] at hx
      rcases List.mem_cons.mp hx with hx | hx
      · subst hx; simp
      · exact ih x hx
    · rw [if_neg (by simp [hc])] at hx
      cases hsp : rest.splitOnP (· == '/') with
      | nil => exact absurd hsp (List.splitOnP_ne_nil _ rest)
      | cons h t =>
        rw [hsp] at hx
        simp only [List.modifyHead] at hx
        rcases List.mem_cons.mp hx with hx | hx
        · subst hx
          intro hmem
          rcases List.mem_cons.mp hmem with hmem | hmem
          · exact hc hmem.symm
          · exact ih h (by rw [hsp]; simp) hmem
        · exact ih x (by rw [hsp]; exact List.mem_cons_of_mem h hx)

/-- Raw segments are nonempty and slash-free. -/
theorem rawSegments_elems (p : JStr) :
    ∀ x ∈ rawSegments p, x ≠ [] ∧ '/' ∉ x := by
  intro x hx
  unfold rawSegments at hx
  by_cases h : p = [] ∨ p = js "/"
  · rw [if_pos h] at hx
    simp at hx
  · rw [if_neg h] at hx
    simp only [List.mem_filter, Bool.not_eq_true'] at hx
    obtain ⟨hmem, hne⟩ := hx
    refine ⟨by simpa using hne, ?_⟩
    exact mem_splitOn_slash_free _ x hmem

/-- The per-segment normalizer either keeps the fragment (static case) or
yields one of the four canonical tokens. -/
theorem segF_shape (L : Nat) (pc : Bool) (s : JStr) (hL : L = 1 ∨ L = 2) :
    segProject L pc (parsePathSegment s) = s ∨
    segProject L pc (parsePathSegment s)
      ∈ [ js "*", js ":param", js ":param?", js ":param-:param" ] := by
  rcases parsePathSegment_shape s with h | h | h | h | h
  · left
    rcases hL with rfl | rfl
    · simp [segProject, h.2.1]
    · simp [segProject, h.1, h.2.1]
  · right
    rcases hL with rfl | rfl
    · simp [segProject, h.2]
    · simp [segProject, h.1, h.2]
  · right
    rcases hL with rfl | rfl
    · simp [segProject, h.2]
    · cases pc <;> simp [segProject, h.1, h.2]
  · right
    rcases hL with rfl | rfl
    · rcases h.2 with h2 | h2 <;> simp [segProject, h2]
    · rcases h.2 with h2 | h2 <;> simp [segProject, h.1, h2]
  · right
    rcases hL with rfl | rfl
    · simp [segProject, h.2]
    · simp [segProject, h.1, h.2]

/-- The per-segment normalizer is idempotent. -/
theorem segF_idem (L : Nat) (pc : Bool) (s : JStr) (hL : L = 1 ∨ L = 2) :
    segProject L pc (parsePathSegment (segProject L pc (parsePathSegment s)))
      = segProject L pc (parsePathSegment s) := by
  rcases segF_shape L pc s hL with h | h
  · rw [h]
    exact h
  · simp only [List.mem_cons, List.not_mem_nil, or_false] at h
    rcases h with h | h | h | h <;> rw [h] <;> rcases hL with rfl | rfl <;>
      cases pc <;> decide

/-- The per-segment normalizer keeps fragments nonempty and slash-free. -/
theorem segF_out (L : Nat) (pc : Bool) (s : JStr) (hL : L = 1 ∨ L = 2)
    (hs : s ≠ []) (hns : '/' ∉ s) :
    segProject L pc (parsePathSegment s) ≠ [] ∧
    '/' ∉ segProject L pc (parsePathSegment s) := by
  rcases segF_shape L pc s hL with h | h
  · rw [h]; exact ⟨hs, hns⟩
  · simp only [List.mem_cons, List.not_mem_nil, or_false] at h
    rcases h with h | h | h | h <;> rw [h] <;> exact ⟨by decide, by decide⟩

/-- The miss-path computation in terms of raw segments. -/
theorem normalizeCompute_eq (p : JStr) (L : Nat) (pc : Bool) :
    normalizeCompute p L pc =
      if rawSegments p = [] then js "/"
      else '/' :: List.intercalate (js "/")
        ((rawSegments p).map (fun s => segProject L pc (parsePathSegment s))) := by
  unfold normalizeCompute parsePathSegments
  rw [List.map_map]
  by_cases h : rawSegments p = []
  · simp [h]
  · have hpos : 0 < ((rawSegments p).map
        (segProject L pc ∘ parsePathSegment)).length := by
      simp only [List.length_map]
      exact List.length_pos.mpr h
    rw [if_pos hpos, if_neg h]
    rfl

/-- Splitting the slash-joined form of nonempty slash-free fragments
recovers the fragments. -/
theorem rawSegments_slash_intercalate (ys : List JStr) (hne : ys ≠ [])
    (hprops : ∀ y ∈ ys, y ≠ [] ∧ '/' ∉ y) :
    rawSegments ('/' :: List.intercalate (js "/") ys) = ys := by
  have hjs : js "/" = [ '/' ] := by decide
  have hsplit : (List.intercalate [ '/' ] ys).splitOn '/' = ys :=
    List.splitOn_intercalate ys '/' (fun l hl => (hprops l hl).2) hne
  have hbody : List.intercalate (js "/") ys ≠ [] := by
    rw [hjs]
    intro hnil
    rw [hnil] at hsplit
    simp only [List.splitOn, List.splitOnP_nil] at hsplit
    have : ([] : JStr) ∈ ys := by rw [← hsplit]; simp
    exact (hprops [] this).1 rfl
  unfold rawSegments
  rw [if_neg (by
    rintro (h | h)
    · simp at h
    · rw [show js "/" = [ '/' ] from by decide] at h
      simp only [List.cons.injEq] at h
      exact hbody h.2)]
  simp only [List.head?_cons, List.drop_succ_cons, List.drop_zero, hjs,
    if_true]
  rw [hsplit]
  rw [List.filter_eq_self.mpr]
  intro y hy
  simpa using (hprops y hy).1

/-- The miss-path computation is idempotent at the cached levels. -/
theorem normalizeCompute_idem (p : JStr) (L : Nat) (pc : Bool)
    (hL : L = 1 ∨ L = 2) :
    normalizeCompute (normalizeCompute p L pc) L pc
      = normalizeCompute p L pc := by
  rw [normalizeCompute_eq p L pc]
  by_cases h : rawSegments p = []
  · rw [if_pos h, normalizeCompute_eq]
    rw [if_pos (by decide : rawSegments (js "/") = [])]
  · rw [if_neg h]
    have hyne : ((rawSegments p).map
        (fun s => segProject L pc (parsePathSegment s))) ≠ [] := by
      simpa using h
    have hyprops : ∀ y ∈ (rawSegments p).map
        (fun s => segProject L pc (parsePathSegment s)), y ≠ [] ∧ '/' ∉ y := by
      intro y hy
      obtain ⟨x, hx, hxy⟩ := List.mem_map.mp hy
      obtain ⟨hx1, hx2⟩ := rawSegments_elems p x hx
      rw [← hxy]
      exact segF_out L pc x hL hx1 hx2
    have hraw := rawSegments_slash_intercalate _ hyne hyprops
    rw [normalizeCompute_eq]
    rw [if_neg (by rw [hraw]; exact hyne), hraw]
    congr 1
    congr 1
    rw [List.map_map]
    apply List.map_congr_left
    intro x _
    exact segF_idem L pc x hL

/-- The cache-free normalizer is idempotent at every declared level. -/
theorem normalizePathCore_idem (p : JStr) (L : Nat) (pc : Bool)
    (hL : L ≤ 2) :
    normalizePathCore (normalizePathCore p L pc) L pc
      = normalizePathCore p L pc := by
  by_cases h0 : L = 0
  · subst h0
    by_cases hp : p = []
    · rw [hp]
      cases pc <;> decide
    · have hr : normalizePathCore p 0 pc
          = if p.head? = some '/' then p else '/' :: p := by
        unfold normalizePathCore
        rw [if_neg hp]
        simp
      rw [hr]
      by_cases hh : p.head? = some '/'
      · rw [if_pos hh]
        unfold normalizePathCore
        rw [if_neg hp]
        simp [hh]
      · rw [if_neg hh]
        unfold normalizePathCore
        rw [if_neg (by simp : ¬(('/' :: p) = []))]
        simp
  · unfold normalizePathCore
    by_cases hp : p = []
    · rw [if_pos hp, if_neg (by decide : ¬(js "/" = [])), if_neg h0]
      rw [normalizeCompute_eq]
      rw [if_pos (by decide : rawSegments (js "/") = [])]
    · rw [if_neg hp, if_neg h0]
      have hcne : normalizeCompute p L pc ≠ [] := by
        have ht := normalizeCompute_truthy p L pc
        intro hnil
        rw [hnil] at ht
        simp [truthyStr] at ht
      rw [if_neg hcne, if_neg h0]
      exact normalizeCompute_idem p L pc (by omega)

/-! ## Claim C6 — normalization is idempotent -/

/-- C6: for every path, every level in {0, 1, 2} and every well-formed
cache state, re-normalizing the normalizer's output (threading the cache)
returns it unchanged: `normalize(normalize(p, L), L) == normalize(p, L)`
(with `preserveConstraints` at its default `false`). -/
theorem normalize_idempotent (p : JStr) (L : Nat) (c : NCache)
    (hL : L ≤ 2) (hwf : normCacheWF c) :
    (normalizePathWithLevel ((normalizePathWithLevel p L false c).1) L false
        ((normalizePathWithLevel p L false c).2)).1
      = (normalizePathWithLevel p L false c).1 := by
  obtain ⟨h1, hwf1⟩ := normalizePathWithLevel_agree p L false c hL hwf
  obtain ⟨h2, _⟩ := normalizePathWithLevel_agree
    ((normalizePathWithLevel p L false c).1) L false
    ((normalizePathWithLevel p L false c).2) hL hwf1
  rw [h2, h1, normalizePathCore_idem p L false hL]

/-- C6 witness: `"/users/:id/"` at level 1 from the empty cache. -/
theorem normalize_idempotent_witness :
    (normalizePathWithLevel
        ((normalizePathWithLevel (js "/users/:id/") 1 false
          (PerformanceCache.mk0 2000)).1) 1 false
        ((normalizePathWithLevel (js "/users/:id/") 1 false
          (PerformanceCache.mk0 2000)).2)).1
      = (normalizePathWithLevel (js "/users/:id/") 1 false
          (PerformanceCache.mk0 2000)).1 :=
  normalize_idempotent (js "/users/:id/") 1 (PerformanceCache.mk0 2000)
    (by decide) (normCacheWF_empty 2000)
